import Mathlib

/-!
# Verification of the chataigne message-history normalizer

A shallow embedding of `chataigne`'s core: the JSON-like wire values, the
`merge` primitive, the four `MessagePart` variants with their per-provider
wire conversions, the two history normalizers `to_openai` / `to_anthropic`,
the tagged serialization of a history, the tool-schema derivation, and the
deny action of the chat backend.  Each definition is translated from the
Python source file it names; theorems at the end settle the specification
claims against these definitions.
-/

/-! ## JSON-like values

Wire messages, tool parameters and serialized message parts are Python
dict/list/scalar trees.  `JVal.obj` keeps the insertion order of a Python
dict, which is semantically significant for the merge primitive. -/

inductive JVal where
  | str : String → JVal
  | num : Int → JVal
  | bool : Bool → JVal
  | arr : List JVal → JVal
  | obj : List (String × JVal) → JVal

namespace JVal

/-- Structural equality of JSON trees, matching Python `==` on the values the
program builds (no cross-type numeric coercion arises in them). -/
def beq : JVal → JVal → Bool
  | .str a, .str b => a == b
  | .num a, .num b => a == b
  | .bool a, .bool b => a == b
  | .arr [], .arr [] => true
  | .arr (x :: xs), .arr (y :: ys) => beq x y && beq (.arr xs) (.arr ys)
  | .obj [], .obj [] => true
  | .obj ((k, v) :: xs), .obj ((k2, v2) :: ys) =>
      k == k2 && beq v v2 && beq (.obj xs) (.obj ys)
  | _, _ => false

theorem beq_iff : ∀ a b : JVal, beq a b = true ↔ a = b := by
  intro a b
  induction a, b using JVal.beq.induct <;> simp_all [beq]
  next a b hs hn hb ha1 ha2 ho1 ho2 =>
    intro h
    subst h
    cases a with
    | str s => exact hs s s rfl rfl
    | num n => exact hn n n rfl rfl
    | bool v =>
        cases v with
        | false => exact hb.1.1 rfl rfl
        | true => exact hb.2.2 rfl rfl
    | arr l =>
        cases l with
        | nil => exact ha1 rfl rfl
        | cons x xs => exact ha2 x xs x xs rfl rfl
    | obj l =>
        cases l with
        | nil => exact ho1 rfl rfl
        | cons p ps =>
            exact ho2 p.1 p.2 ps p.1 p.2 ps (by rw [Prod.mk.eta]) (by rw [Prod.mk.eta])

instance : DecidableEq JVal := fun a b => decidable_of_iff _ (beq_iff a b)

/-- `d[key]` on a Python dict: first binding of the key, if any. -/
def lookupKey : List (String × JVal) → String → Option JVal
  | [], _ => none
  | (k, v) :: rest, key => if k = key then some v else lookupKey rest key

/-- `d[key] = v` on a Python dict when `key` is already present: the value is
replaced in place, the key keeps its position. -/
def setKey : List (String × JVal) → String → JVal → List (String × JVal)
  | [], _, _ => []
  | (k, v) :: rest, key, newV =>
      if k = key then (k, newV) :: rest else (k, v) :: setKey rest key newV

/-- `isinstance(v, (dict, list))`. -/
def isContainer : JVal → Bool
  | .arr _ => true
  | .obj _ => true
  | _ => false

end JVal

/-! ## The merge primitive (`messages.py`, `merge`)

The Python function raises `AssertionError` on a conflicting key (the spec's
ConflictError) and `ValueError` on a shape mismatch (the spec's
TypeMismatchError); the embedding returns them through `Except`. -/

inductive MergeError where
  | conflict : String → JVal → JVal → MergeError
  | typeMismatch : JVal → JVal → MergeError
  deriving DecidableEq

mutual

def merge : JVal → JVal → Except MergeError JVal
  | .arr a, .arr b => .ok (.arr (a ++ b))
  | .obj a, .obj b => do
      let out ← mergeObj a b
      return .obj out
  | a, b => .error (.typeMismatch a b)
termination_by _ b => sizeOf b

/-- The loop `for key in b.keys(): ...` of `merge`, threading the dict `new`
that started as a copy of `a`. -/
def mergeObj (new : List (String × JVal)) :
    List (String × JVal) → Except MergeError (List (String × JVal))
  | [] => .ok new
  | (key, bv) :: rest =>
      match JVal.lookupKey new key with
      | some cur =>
          if cur.isContainer then do
            let merged ← merge cur bv
            mergeObj (JVal.setKey new key merged) rest
          else if cur = bv then
            mergeObj new rest
          else
            .error (.conflict key cur bv)
      | none => mergeObj (new ++ [(key, bv)]) rest
termination_by l => sizeOf l

end

/-! ## `json.dumps` (used for provider-A tool-call arguments)

Python's `json.dumps` with default options: `", "` between items, `": "`
after a key, `ensure_ascii` escaping of the string contents. -/

def hexDigit (n : Nat) : Char :=
  if n < 10 then Char.ofNat (48 + n) else Char.ofNat (87 + n)

def hex4 (n : Nat) : String :=
  String.mk [hexDigit (n / 4096 % 16), hexDigit (n / 256 % 16),
             hexDigit (n / 16 % 16), hexDigit (n % 16)]

def escapeChar (c : Char) : String :=
  if c = '"' then "\\\""
  else if c = '\\' then "\\\\"
  else if c = '\n' then "\\n"
  else if c = '\t' then "\\t"
  else if c = '\r' then "\\r"
  else if c.toNat = 8 then "\\b"
  else if c.toNat = 12 then "\\f"
  else if c.toNat < 32 ∨ 126 < c.toNat then
    if c.toNat ≤ 65535 then "\\u" ++ hex4 c.toNat
    else
      "\\u" ++ hex4 (55296 + (c.toNat - 65536) / 1024) ++
      "\\u" ++ hex4 (56320 + (c.toNat - 65536) % 1024)
  else String.singleton c

def pyJsonStr (s : String) : String :=
  "\"" ++ String.join (s.toList.map escapeChar) ++ "\""

mutual

def dumps : JVal → String
  | .str s => pyJsonStr s
  | .num n => toString n
  | .bool b => if b then "true" else "false"
  | .arr l => "[" ++ String.intercalate ", " (dumpsList l) ++ "]"
  | .obj l => "\x7b" ++ String.intercalate ", " (dumpsObj l) ++ "\x7d"
termination_by v => sizeOf v

def dumpsList : List JVal → List String
  | [] => []
  | v :: rest => dumps v :: dumpsList rest
termination_by l => sizeOf l

def dumpsObj : List (String × JVal) → List String
  | [] => []
  | (k, v) :: rest => (pyJsonStr k ++ ": " ++ dumps v) :: dumpsObj rest
termination_by l => sizeOf l

end

/-! ## Message parts (`messages.py`)

One constructor per `MessagePart` subclass, with the subclass's fields. -/

inductive MessagePart where
  | TextMessage (text : String) (is_user : Bool)
  | ImageMessage (base_64 : String)
  | ToolRequestMessage (name : String) (parameters : List (String × JVal)) (id : String)
  | ToolOutputMessage (id : String) (name : String) (content : String) (canceled : Bool)
  deriving DecidableEq

namespace MessagePart

/-- `TextMessage.to_openai` / `ImageMessage.to_openai` / etc., one wire
fragment per part. -/
def to_openai : MessagePart → JVal
  | .TextMessage text is_user =>
      .obj [("role", .str (if is_user then "user" else "assistant")),
            ("content", .arr [.obj [("type", .str "text"), ("text", .str text)]])]
  | .ImageMessage base_64 =>
      .obj [("role", .str "user"),
            ("content", .arr [.obj [("type", .str "image_url"),
              ("image_url", .obj [("url", .str ("data:image/png;base64," ++ base_64))])]])]
  | .ToolRequestMessage name parameters id =>
      .obj [("role", .str "assistant"),
            ("tool_calls", .arr [.obj [("id", .str id), ("type", .str "function"),
              ("function", .obj [("name", .str name),
                                 ("arguments", .str (dumps (.obj parameters)))])]])]
  | .ToolOutputMessage id _name content _canceled =>
      .obj [("role", .str "tool"), ("content", .str content), ("tool_call_id", .str id)]

def to_anthropic : MessagePart → JVal
  | .TextMessage text is_user =>
      .obj [("role", .str (if is_user then "user" else "assistant")),
            ("content", .arr [.obj [("type", .str "text"), ("text", .str text)]])]
  | .ImageMessage base_64 =>
      .obj [("role", .str "user"),
            ("content", .arr [.obj [("type", .str "image"),
              ("source", .obj [("type", .str "base64"),
                               ("media_type", .str "image/png"),
                               ("data", .str base_64)])]])]
  | .ToolRequestMessage name parameters id =>
      .obj [("role", .str "assistant"),
            ("content", .arr [.obj [("type", .str "tool_use"), ("name", .str name),
              ("input", .obj parameters), ("id", .str id)]])]
  | .ToolOutputMessage id _name content _canceled =>
      .obj [("role", .str "user"),
            ("content", .arr [.obj [("type", .str "tool_result"),
              ("tool_use_id", .str id), ("content", .str content)]])]

/-- `isinstance(x, TextMessage) and x.is_user`. -/
def isUserText : MessagePart → Bool
  | .TextMessage _ u => u
  | _ => false

/-- `isinstance(x, TextMessage) and not x.is_user`. -/
def isAssistantText : MessagePart → Bool
  | .TextMessage _ u => !u
  | _ => false

def isImageMessage : MessagePart → Bool
  | .ImageMessage _ => true
  | _ => false

def isToolRequestMessage : MessagePart → Bool
  | .ToolRequestMessage .. => true
  | _ => false

def isToolOutputMessage : MessagePart → Bool
  | .ToolOutputMessage .. => true
  | _ => false

/-- The `is_user_message` classifier inside `MessageHistory.to_anthropic`. -/
def is_user_message : MessagePart → Bool
  | .TextMessage _ u => u
  | .ImageMessage _ => true
  | .ToolOutputMessage .. => true
  | .ToolRequestMessage .. => false

end MessagePart

/-! ## The history normalizers (`messages.py`, `MessageHistory`) -/

abbrev MessageHistory := List MessagePart

open MessagePart

/-- Convert a run: the opening part's wire fragment, then each absorbed
part's fragment merged in, left to right. -/
def wireOfRun (conv : MessagePart → JVal) (run : MessagePart × List MessagePart) :
    Except MergeError JVal :=
  run.2.foldlM (fun acc p => merge acc (conv p)) (conv run.1)

/-- `MessageHistory.to_openai`: the `while i < len(self)` scan.  Each loop
iteration becomes one recursive step emitting one wire message. -/
def MessageHistory.to_openai : MessageHistory → Except MergeError (List JVal)
  | [] => .ok []
  | m :: rest =>
      if isUserText m then do
        let w ← (rest.takeWhile isImageMessage).foldlM
                  (fun acc p => merge acc p.to_openai) m.to_openai
        let ws ← MessageHistory.to_openai (rest.dropWhile isImageMessage)
        return w :: ws
      else if isAssistantText m then do
        let w ← (rest.takeWhile isToolRequestMessage).foldlM
                  (fun acc p => merge acc p.to_openai) m.to_openai
        let ws ← MessageHistory.to_openai (rest.dropWhile isToolRequestMessage)
        return w :: ws
      else do
        let ws ← MessageHistory.to_openai rest
        return m.to_openai :: ws
termination_by h => h.length
decreasing_by
  · exact Nat.lt_succ_of_le ((List.dropWhile_sublist _).length_le)
  · exact Nat.lt_succ_of_le ((List.dropWhile_sublist _).length_le)
  · exact Nat.lt_succ_of_le (Nat.le_refl _)

/-- `MessageHistory.to_anthropic`: same scan with the `is_user_message`
classification deciding what a run absorbs. -/
def MessageHistory.to_anthropic : MessageHistory → Except MergeError (List JVal)
  | [] => .ok []
  | m :: rest =>
      if is_user_message m then do
        let w ← (rest.takeWhile is_user_message).foldlM
                  (fun acc p => merge acc p.to_anthropic) m.to_anthropic
        let ws ← MessageHistory.to_anthropic (rest.dropWhile is_user_message)
        return w :: ws
      else do
        let w ← (rest.takeWhile (fun x => !is_user_message x)).foldlM
                  (fun acc p => merge acc p.to_anthropic) m.to_anthropic
        let ws ← MessageHistory.to_anthropic (rest.dropWhile (fun x => !is_user_message x))
        return w :: ws
termination_by h => h.length
decreasing_by
  · exact Nat.lt_succ_of_le ((List.dropWhile_sublist _).length_le)
  · exact Nat.lt_succ_of_le ((List.dropWhile_sublist _).length_le)

/-! ## Spec-side run decompositions

`openaiRuns` / `anthropicRuns` state the spec's grouping rules (§4.2/§4.3)
as an explicit decomposition of the history into runs: each run is its
opening part plus the parts it absorbs.  The refinement theorems relate the
normalizers above to merging these runs. -/

def openaiRuns : MessageHistory → List (MessagePart × List MessagePart)
  | [] => []
  | m :: rest =>
      if isUserText m then
        (m, rest.takeWhile isImageMessage) :: openaiRuns (rest.dropWhile isImageMessage)
      else if isAssistantText m then
        (m, rest.takeWhile isToolRequestMessage) ::
          openaiRuns (rest.dropWhile isToolRequestMessage)
      else
        (m, []) :: openaiRuns rest
termination_by h => h.length
decreasing_by
  · exact Nat.lt_succ_of_le ((List.dropWhile_sublist _).length_le)
  · exact Nat.lt_succ_of_le ((List.dropWhile_sublist _).length_le)
  · exact Nat.lt_succ_of_le (Nat.le_refl _)

def to_openai_spec (h : MessageHistory) : Except MergeError (List JVal) :=
  (openaiRuns h).mapM (wireOfRun MessagePart.to_openai)

def anthropicRuns : MessageHistory → List (MessagePart × List MessagePart)
  | [] => []
  | m :: rest =>
      if is_user_message m then
        (m, rest.takeWhile is_user_message) ::
          anthropicRuns (rest.dropWhile is_user_message)
      else
        (m, rest.takeWhile (fun x => !is_user_message x)) ::
          anthropicRuns (rest.dropWhile (fun x => !is_user_message x))
termination_by h => h.length
decreasing_by
  · exact Nat.lt_succ_of_le ((List.dropWhile_sublist _).length_le)
  · exact Nat.lt_succ_of_le ((List.dropWhile_sublist _).length_le)

def to_anthropic_spec (h : MessageHistory) : Except MergeError (List JVal) :=
  (anthropicRuns h).mapM (wireOfRun MessagePart.to_anthropic)

/-! ## The spec's reference merge (§4.1)

`mergeSpec` is written from the spec's words rather than the source: every
key of `a` in `a`'s order with the shared-key rule applied, then the keys
appearing only in `b` appended in `b`'s order with their values copied
as-is.  The refinement theorem compares it with `merge`. -/

def keysOf (l : List (String × JVal)) : List String := l.map Prod.fst

def specEntry (b : List (String × JVal)) (kv : String × JVal) :
    Except MergeError (String × JVal) :=
  match JVal.lookupKey b kv.1 with
  | none => .ok kv
  | some bv =>
      if kv.2.isContainer then do
        let m ← merge kv.2 bv
        return (kv.1, m)
      else if kv.2 = bv then .ok kv
      else .error (.conflict kv.1 kv.2 bv)

def specObj (a b : List (String × JVal)) : Except MergeError (List (String × JVal)) := do
  let fromA ← a.mapM (specEntry b)
  return fromA ++ b.filter (fun kv => (JVal.lookupKey a kv.1).isNone)

def mergeSpec : JVal → JVal → Except MergeError JVal
  | .arr a, .arr b => .ok (.arr (a ++ b))
  | .obj a, .obj b => do
      let out ← specObj a b
      return .obj out
  | a, b => .error (.typeMismatch a b)

/-! ## Tagged serialization of a history (`messages.py`, `MessageHistory` root
model with the `type` discriminator) -/

namespace MessagePart

/-- `model_dump()`: the tagged object of one part — the `type` discriminator
plus the variant's remaining fields. -/
def model_dump : MessagePart → JVal
  | .TextMessage text is_user =>
      .obj [("type", .str "text"), ("text", .str text), ("is_user", .bool is_user)]
  | .ImageMessage base_64 =>
      .obj [("type", .str "image"), ("base_64", .str base_64)]
  | .ToolRequestMessage name parameters id =>
      .obj [("type", .str "toolrequest"), ("name", .str name),
            ("parameters", .obj parameters), ("id", .str id)]
  | .ToolOutputMessage id name content canceled =>
      .obj [("type", .str "tooloutput"), ("id", .str id), ("name", .str name),
            ("content", .str content), ("canceled", .bool canceled)]

/-- Validation of one tagged object back into a part: dispatch on the
`type` discriminator, then read each field (`canceled` has default
`false`). -/
def validatePart (v : JVal) : Option MessagePart :=
  match v with
  | .obj kvs =>
      match JVal.lookupKey kvs "type" with
      | some (.str "text") =>
          match JVal.lookupKey kvs "text", JVal.lookupKey kvs "is_user" with
          | some (.str t), some (.bool u) => some (.TextMessage t u)
          | _, _ => none
      | some (.str "image") =>
          match JVal.lookupKey kvs "base_64" with
          | some (.str b) => some (.ImageMessage b)
          | _ => none
      | some (.str "toolrequest") =>
          match JVal.lookupKey kvs "name", JVal.lookupKey kvs "parameters",
                JVal.lookupKey kvs "id" with
          | some (.str n), some (.obj p), some (.str i) =>
              some (.ToolRequestMessage n p i)
          | _, _, _ => none
      | some (.str "tooloutput") =>
          match JVal.lookupKey kvs "id", JVal.lookupKey kvs "name",
                JVal.lookupKey kvs "content" with
          | some (.str i), some (.str n), some (.str c) =>
              match JVal.lookupKey kvs "canceled" with
              | none => some (.ToolOutputMessage i n c false)
              | some (.bool cc) => some (.ToolOutputMessage i n c cc)
              | some _ => none
          | _, _, _ => none
      | _ => none
  | _ => none

end MessagePart

/-- `MessageHistory.model_dump()`: the ordered list of tagged objects. -/
def MessageHistory.model_dump (h : MessageHistory) : List JVal :=
  h.map MessagePart.model_dump

/-- `MessageHistory.model_validate`: deserialize the ordered list, failing
if any element fails. -/
def MessageHistory.model_validate (l : List JVal) : Option MessageHistory :=
  l.mapM MessagePart.validatePart

/-! ## Tool derivation (`tool.py`) -/

/-- The parameter type annotations exercised by the spec's scenarios. -/
inductive PyType where
  | int | float | str | bool
  deriving DecidableEq

/-- One parameter of a callable's signature: its name, its optional type
annotation, its optional default value. -/
structure PyParam where
  name : String
  annotation : Option PyType
  default : Option JVal
  deriving DecidableEq

/-- A callable as seen by `Tool.from_function`: identifier, docstring if
any, and the ordered signature parameters. -/
structure FuncSig where
  name : String
  doc : Option String
  params : List PyParam
  deriving DecidableEq

inductive ToolError where
  /-- the `ValueError` of `create_model_from_function` -/
  | untypedParameter (param func : String)
  /-- the failed `assert func.__doc__ is not None` of `Tool.from_function` -/
  | missingDocstring (func : String)
  deriving DecidableEq

/-- One field of the derived pydantic model. -/
structure FieldModel where
  name : String
  type : PyType
  required : Bool
  default : Option JVal
  deriving DecidableEq

/-- The loop body of `create_model_from_function`: raise if the parameter
has no type hint, else one model field — optional when a default exists,
required otherwise. -/
def paramField (fn : String) (p : PyParam) : Except ToolError FieldModel :=
  match p.annotation with
  | none => .error (.untypedParameter p.name fn)
  | some t => .ok { name := p.name, type := t,
                    required := p.default.isNone, default := p.default }

/-- `create_model_from_function`: derive one field per signature parameter,
in signature order. -/
def create_model_from_function (f : FuncSig) : Except ToolError (List FieldModel) :=
  f.params.mapM (paramField f.name)

/-- Modelled from pydantic's documented `model_json_schema` (the library
call used by `Tool.shema`; pydantic itself is not part of this repository):
`properties` holds one entry per field keyed by field name in field order,
`required` lists the names of the fields without a default, in field
order. -/
def typeSchema : PyType → JVal
  | .int => .obj [("type", .str "integer")]
  | .float => .obj [("type", .str "number")]
  | .str => .obj [("type", .str "string")]
  | .bool => .obj [("type", .str "boolean")]

def model_json_schema (fields : List FieldModel) : JVal :=
  .obj [("properties", .obj (fields.map fun fl => (fl.name, typeSchema fl.type))),
        ("required", .arr ((fields.filter (·.required)).map fun fl => .str fl.name))]

/-- Modelled from pydantic's documented model construction: each field takes
the supplied argument, else its default, else validation fails. -/
def modelValidate (fields : List FieldModel) (args : List (String × JVal)) :
    Option (List (String × JVal)) :=
  fields.mapM fun fl =>
    match JVal.lookupKey args fl.name with
    | some v => some (fl.name, v)
    | none =>
        match fl.default with
        | some d => some (fl.name, d)
        | none => none

structure Tool where
  name : String
  description : String
  fields : List FieldModel
  enabled : Bool := true
  deriving DecidableEq

/-- `schema[key]` on the schema dict (always present on the schemas the
program builds). -/
def schemaIndex (schema : JVal) (key : String) : JVal :=
  match schema with
  | .obj kvs =>
      match JVal.lookupKey kvs key with
      | some v => v
      | none => .obj []
  | _ => .obj []

/-- `Tool.shema`: in the source, `parameters = (schema["properties"],)` and
`required = (schema["required"],)` — the trailing commas build one-element
tuples (arrays on the wire) around the values taken from
`model_json_schema`. -/
def Tool.shema (t : Tool) : JVal :=
  let schema := model_json_schema t.fields
  .obj [("type", .str "object"),
        ("properties", .arr [schemaIndex schema "properties"]),
        ("required", .arr [schemaIndex schema "required"])]

/-- `Tool.from_function`: derive the model (raising on untyped parameters),
then `assert func.__doc__ is not None`, then build the tool. -/
def Tool.from_function (f : FuncSig) : Except ToolError Tool := do
  let FArgs ← create_model_from_function f
  match f.doc with
  | none => .error (.missingDocstring f.name)
  | some d => return { name := f.name, description := d, fields := FArgs }

/-! ## The chat backend's deny action (`web_base.py`) -/

structure ChatBackend where
  tools : List (String × Tool)
  messages : MessageHistory
  deriving DecidableEq

def lookupTool : List (String × Tool) → String → Option Tool
  | [], _ => none
  | (k, t) :: rest, key => if k = key then some t else lookupTool rest key

/-- `needs_processing` for a `ToolRequestMessage`: no `ToolOutputMessage`
anywhere in the history carries its id. -/
def pendingToolRequest (h : MessageHistory) (index : Nat) : Bool :=
  match h[index]? with
  | some (.ToolRequestMessage _ _ id) =>
      !(h.any fun p =>
          match p with
          | .ToolOutputMessage oid _ _ _ => oid == id
          | _ => false)
  | _ => false

/-- `call_action` with `Actions.DENY`: assert the part is a tool request,
look its tool up, append the fixed denial output.  `none` models the
uncaught `AssertionError`/`KeyError` paths. -/
def call_action_deny (st : ChatBackend) (index : Nat) : Option ChatBackend :=
  match st.messages[index]? with
  | some (.ToolRequestMessage name _params id) =>
      match lookupTool st.tools name with
      | some tool =>
          some { st with messages := st.messages ++
            [.ToolOutputMessage id tool.name "Tool call denied by user" true] }
      | none => none
  | _ => none

/-! ## `Except`, by hand

The developments below unfold `Except` programs one bind at a time; these
are the equations they rewrite with. -/

theorem exc_bind_ok {ε α β : Type} (v : α) (f : α → Except ε β) :
    (Except.ok v >>= f) = f v := rfl

theorem exc_bind_error {ε α β : Type} (e : ε) (f : α → Except ε β) :
    ((Except.error e : Except ε α) >>= f) = .error e := rfl

theorem exc_map_ok {ε α β : Type} (g : α → β) (v : α) :
    (g <$> (Except.ok v : Except ε α)) = .ok (g v) := rfl

theorem exc_map_error {ε α β : Type} (g : α → β) (e : ε) :
    (g <$> (Except.error e : Except ε α)) = .error e := rfl

theorem exc_pure {ε α : Type} (v : α) : (pure v : Except ε α) = .ok v := rfl

/-! ## Dictionary plumbing lemmas -/

namespace JVal

theorem lookupKey_eq_none {l : List (String × JVal)} {k : String} :
    lookupKey l k = none ↔ k ∉ keysOf l := by
  induction l with
  | nil => simp [lookupKey, keysOf]
  | cons kv rest ih =>
      obtain ⟨k1, v1⟩ := kv
      by_cases h : k1 = k
      · subst h
        simp [lookupKey, keysOf]
      · have h' : k ≠ k1 := fun he => h he.symm
        simp [lookupKey, keysOf, h, h', ih]

theorem lookupKey_append_of_none {l1 l2 : List (String × JVal)} {k : String}
    (h : lookupKey l1 k = none) : lookupKey (l1 ++ l2) k = lookupKey l2 k := by
  induction l1 with
  | nil => simp
  | cons kv rest ih =>
      obtain ⟨k1, v1⟩ := kv
      by_cases hk : k1 = k <;> simp_all [lookupKey]

theorem lookupKey_append_of_some {l1 l2 : List (String × JVal)} {k : String} {v : JVal}
    (h : lookupKey l1 k = some v) : lookupKey (l1 ++ l2) k = some v := by
  induction l1 with
  | nil => simp [lookupKey] at h
  | cons kv rest ih =>
      obtain ⟨k1, v1⟩ := kv
      by_cases hk : k1 = k <;> simp_all [lookupKey]

theorem keysOf_append (l1 l2 : List (String × JVal)) :
    keysOf (l1 ++ l2) = keysOf l1 ++ keysOf l2 := by
  simp [keysOf]

theorem keysOf_setKey (l : List (String × JVal)) (k : String) (v : JVal) :
    keysOf (setKey l k v) = keysOf l := by
  induction l with
  | nil => simp [setKey]
  | cons kv rest ih =>
      obtain ⟨k1, v1⟩ := kv
      by_cases hk : k1 = k <;> simp [setKey, keysOf, hk] at * <;> exact ih

theorem lookupKey_setKey_ne {l : List (String × JVal)} {k k' : String} (v : JVal)
    (h : k' ≠ k) : lookupKey (setKey l k v) k' = lookupKey l k' := by
  induction l with
  | nil => simp [setKey]
  | cons kv rest ih =>
      obtain ⟨k1, v1⟩ := kv
      by_cases hk : k1 = k
      · subst hk
        simp [setKey, lookupKey, Ne.symm h]
      · by_cases hk' : k1 = k' <;> simp [setKey, lookupKey, hk, hk', h, ih]

theorem mem_setKey {l : List (String × JVal)} {k : String} {v : JVal} {kv : String × JVal}
    (h : kv ∈ setKey l k v) : kv ∈ l ∨ kv = (k, v) := by
  induction l with
  | nil => simp [setKey] at h
  | cons hd rest ih =>
      obtain ⟨k1, v1⟩ := hd
      by_cases hk : k1 = k
      · subst hk
        simp [setKey] at h
        rcases h with h | h
        · right; simp [h]
        · left; simp [h]
      · simp [setKey, hk] at h
        rcases h with h | h
        · left; simp [h]
        · rcases ih h with h' | h'
          · left; simp [h']
          · right; exact h'

theorem lookupKey_mem {l : List (String × JVal)} {k : String} {v : JVal}
    (h : lookupKey l k = some v) : (k, v) ∈ l := by
  induction l with
  | nil => simp [lookupKey] at h
  | cons kv rest ih =>
      obtain ⟨k1, v1⟩ := kv
      by_cases hk : k1 = k <;> simp_all [lookupKey]

theorem lookupKey_of_mem_nodup {l : List (String × JVal)} {kv : String × JVal}
    (hnd : (keysOf l).Nodup) (h : kv ∈ l) : lookupKey l kv.1 = some kv.2 := by
  induction l with
  | nil => simp at h
  | cons hd rest ih =>
      obtain ⟨k1, v1⟩ := hd
      simp only [keysOf, List.map_cons, List.nodup_cons] at hnd
      rcases List.mem_cons.mp h with h | h
      · subst h
        simp [lookupKey]
      · have hne : k1 ≠ kv.1 := by
          intro he
          exact hnd.1 (List.mem_map.mpr ⟨kv, h, he.symm⟩)
        simp only [lookupKey, if_neg hne]
        exact ih hnd.2 h

end JVal

/-! ## `mapM` plumbing over `Except` -/

theorem mapM_congr_fun {α ε β : Type} {l : List α} {f g : α → Except ε β}
    (h : ∀ x ∈ l, f x = g x) : l.mapM f = l.mapM g := by
  induction l with
  | nil => rfl
  | cons x rest ih =>
      simp only [List.mapM_cons]
      rw [h x (by simp), ih (fun y hy => h y (by simp [hy]))]

theorem mapM_eq_of_forall₂ {α β γ ε : Type} {f : α → Except ε γ} {g : β → Except ε γ}
    {as : List α} {bs : List β} (h : List.Forall₂ (fun x y => f x = g y) as bs) :
    as.mapM f = bs.mapM g := by
  induction h with
  | nil => rfl
  | cons h _ ih => simp only [List.mapM_cons, h, ih]

theorem mapM_ok_of_mem {α ε β : Type} {l : List α} {f : α → Except ε β} {out : List β}
    (h : l.mapM f = .ok out) {x : α} (hx : x ∈ l) : ∃ y, f x = .ok y := by
  induction l generalizing out with
  | nil => simp at hx
  | cons a rest ih =>
      rw [List.mapM_cons] at h
      cases hfa : f a with
      | error e => rw [hfa, exc_bind_error] at h; exact absurd h (by simp)
      | ok y =>
          rw [hfa, exc_bind_ok] at h
          cases hrest : rest.mapM f with
          | error e => rw [hrest, exc_bind_error] at h; exact absurd h (by simp)
          | ok ys =>
              rcases List.mem_cons.mp hx with hx | hx
              · exact ⟨y, hx ▸ hfa⟩
              · exact ih hrest hx

theorem mapM_ok_id {α ε : Type} (l : List α) :
    l.mapM (fun x => (Except.ok x : Except ε α)) = .ok l := by
  induction l with
  | nil => rfl
  | cons x rest ih => rw [List.mapM_cons, ih]; rfl

/-! ## Relating `merge` to the spec's reference definition -/

theorem specEntry_cons_ne {rest : List (String × JVal)} {k : String} {bv : JVal}
    {kv : String × JVal} (h : kv.1 ≠ k) :
    specEntry ((k, bv) :: rest) kv = specEntry rest kv := by
  have h' : k ≠ kv.1 := fun he => h he.symm
  simp [specEntry, JVal.lookupKey, h']

/-- Processing the shared container key `k` of the `b`-side turns the
pointwise transformation of `new` against `(k, bv) :: rest` into the
transformation of the updated dict against `rest`. -/
theorem mapM_specEntry_setKey {new rest : List (String × JVal)} {k : String}
    {cur bv merged : JVal}
    (hnd : (keysOf new).Nodup)
    (hlk : JVal.lookupKey new k = some cur)
    (hrest : JVal.lookupKey rest k = none)
    (hc : cur.isContainer = true)
    (hm : merge cur bv = .ok merged) :
    new.mapM (specEntry ((k, bv) :: rest)) =
      (JVal.setKey new k merged).mapM (specEntry rest) := by
  induction new with
  | nil => simp [JVal.lookupKey] at hlk
  | cons hd tl ih =>
      obtain ⟨k1, v1⟩ := hd
      simp only [keysOf, List.map_cons, List.nodup_cons] at hnd
      by_cases hk : k1 = k
      · subst hk
        rw [JVal.lookupKey, if_pos rfl] at hlk
        have hv : v1 = cur := by injection hlk
        subst hv
        have hset : JVal.setKey ((k1, v1) :: tl) k1 merged = (k1, merged) :: tl := by
          simp [JVal.setKey]
        rw [hset, List.mapM_cons, List.mapM_cons]
        have h1 : specEntry ((k1, bv) :: rest) (k1, v1) = .ok (k1, merged) := by
          simp [specEntry, JVal.lookupKey, hc, hm, exc_bind_ok, exc_pure]
        have h2 : specEntry rest (k1, merged) = .ok (k1, merged) := by
          simp [specEntry, hrest]
        rw [h1, h2]
        have htl : tl.mapM (specEntry ((k1, bv) :: rest)) = tl.mapM (specEntry rest) := by
          apply mapM_congr_fun
          intro kv hkv
          exact specEntry_cons_ne (fun he => hnd.1 (List.mem_map.mpr ⟨kv, hkv, he⟩))
        rw [htl]
      · rw [JVal.lookupKey, if_neg hk] at hlk
        simp only [JVal.setKey, if_neg hk]
        rw [List.mapM_cons, List.mapM_cons]
        rw [specEntry_cons_ne (show (k1, v1).1 ≠ k from hk)]
        rw [ih hnd.2 hlk]

/-- Processing a shared non-container key with equal values leaves the
pointwise transformation unchanged. -/
theorem mapM_specEntry_eqscalar {new rest : List (String × JVal)} {k : String}
    {cur : JVal}
    (hnd : (keysOf new).Nodup)
    (hlk : JVal.lookupKey new k = some cur)
    (hrest : JVal.lookupKey rest k = none)
    (hc : cur.isContainer = false) :
    new.mapM (specEntry ((k, cur) :: rest)) = new.mapM (specEntry rest) := by
  apply mapM_congr_fun
  intro kv hkv
  by_cases hk : kv.1 = k
  · have hv := JVal.lookupKey_of_mem_nodup hnd hkv
    rw [hk, hlk] at hv
    have hv' : kv.2 = cur := by injection hv with hv'; exact hv'.symm
    obtain ⟨k0, v0⟩ := kv
    simp only at hk hv'
    subst hk
    subst hv'
    simp [specEntry, JVal.lookupKey, hc, hrest]
  · exact specEntry_cons_ne hk

/-- A `b`-key absent from `new` moves across: transforming
`new ++ [(k, bv)]` against `rest` is transforming `new` against
`(k, bv) :: rest`. -/
theorem specObj_fresh {new rest : List (String × JVal)} {k : String} {bv : JVal}
    (hknew : JVal.lookupKey new k = none)
    (hrest : JVal.lookupKey rest k = none) :
    specObj new ((k, bv) :: rest) = specObj (new ++ [(k, bv)]) rest := by
  have hmap : new.mapM (specEntry ((k, bv) :: rest)) = new.mapM (specEntry rest) := by
    apply mapM_congr_fun
    intro kv hkv
    apply specEntry_cons_ne
    intro he
    rw [JVal.lookupKey_eq_none] at hknew
    exact hknew (he ▸ List.mem_map.mpr ⟨kv, hkv, rfl⟩)
  have hfil : rest.filter (fun kv => (JVal.lookupKey (new ++ [(k, bv)]) kv.1).isNone) =
      rest.filter (fun kv => (JVal.lookupKey new kv.1).isNone) := by
    apply List.filter_congr
    intro kv hkv
    have hne : kv.1 ≠ k := by
      intro he
      rw [JVal.lookupKey_eq_none] at hrest
      exact hrest (he ▸ List.mem_map.mpr ⟨kv, hkv, rfl⟩)
    cases hv : JVal.lookupKey new kv.1 with
    | some v => rw [JVal.lookupKey_append_of_some hv]
    | none =>
        rw [JVal.lookupKey_append_of_none hv]
        simp [JVal.lookupKey, Ne.symm hne]
  simp only [specObj, List.mapM_append, hmap]
  cases hm : new.mapM (specEntry rest) with
  | error e => simp [exc_bind_error]
  | ok l =>
      have hone : [(k, bv)].mapM (specEntry rest) = .ok [(k, bv)] := by
        have : specEntry rest (k, bv) = .ok (k, bv) := by simp [specEntry, hrest]
        rw [List.mapM_cons, this]
        rfl
      rw [hone]
      simp only [exc_bind_ok, exc_pure]
      rw [hfil]
      have hkeep : (JVal.lookupKey new k).isNone = true := by simp [hknew]
      simp only [List.filter_cons, hkeep]
      simp [List.append_assoc]

theorem mergeObj_nil (new : List (String × JVal)) : mergeObj new [] = .ok new := by
  rw [mergeObj]

theorem specObj_nil (new : List (String × JVal)) : specObj new [] = .ok new := by
  have h1 : ∀ kv ∈ new, specEntry [] kv = Except.ok kv := fun kv _ => by
    simp [specEntry, JVal.lookupKey]
  have hid := (mapM_congr_fun h1).trans (mapM_ok_id new)
  simp only [specObj, List.filter_nil]
  rw [hid, exc_bind_ok]
  simp [exc_pure]

/-- On successes, the source's accumulator loop agrees with the spec's
reference transformation. -/
theorem mergeObj_ok_iff (b : List (String × JVal)) :
    ∀ (new out : List (String × JVal)), (keysOf new).Nodup → (keysOf b).Nodup →
      (mergeObj new b = .ok out ↔ specObj new b = .ok out) := by
  induction b with
  | nil =>
      intro new out _ _
      rw [mergeObj_nil, specObj_nil]
  | cons hd rest ih =>
      obtain ⟨k, bv⟩ := hd
      intro new out hnew hb
      simp only [keysOf, List.map_cons, List.nodup_cons] at hb
      have hrest : JVal.lookupKey rest k = none :=
        JVal.lookupKey_eq_none.mpr hb.1
      rw [mergeObj]
      cases hlk : JVal.lookupKey new k with
      | some cur =>
          by_cases hc : cur.isContainer
          · simp only [hc, if_pos rfl, if_true]
            cases hm : merge cur bv with
            | error e =>
                rw [exc_bind_error]
                constructor
                · intro hcontra; exact absurd hcontra (by simp)
                · intro hok
                  exfalso
                  simp only [specObj] at hok
                  cases hmap : new.mapM (specEntry ((k, bv) :: rest)) with
                  | error e2 => rw [hmap, exc_bind_error] at hok; simp at hok
                  | ok l =>
                      obtain ⟨y, hy⟩ := mapM_ok_of_mem hmap (JVal.lookupKey_mem hlk)
                      simp [specEntry, JVal.lookupKey, hc, hm, exc_bind_error] at hy
            | ok merged =>
                rw [exc_bind_ok]
                have hnd' : (keysOf (JVal.setKey new k merged)).Nodup := by
                  rw [JVal.keysOf_setKey]; exact hnew
                rw [ih (JVal.setKey new k merged) out hnd' hb.2]
                have heq : specObj new ((k, bv) :: rest) =
                    specObj (JVal.setKey new k merged) rest := by
                  simp only [specObj]
                  rw [mapM_specEntry_setKey hnew hlk hrest hc hm]
                  have hfil : ((k, bv) :: rest).filter
                        (fun kv => (JVal.lookupKey new kv.1).isNone) =
                      rest.filter
                        (fun kv => (JVal.lookupKey (JVal.setKey new k merged) kv.1).isNone) := by
                    have hdrop : ((JVal.lookupKey new k).isNone : Bool) = false := by
                      simp [hlk]
                    simp only [List.filter_cons, hdrop, Bool.false_eq_true, if_false]
                    apply List.filter_congr
                    intro kv hkv
                    have hne : kv.1 ≠ k := by
                      intro he
                      exact hb.1 (he ▸ List.mem_map.mpr ⟨kv, hkv, rfl⟩)
                    rw [JVal.lookupKey_setKey_ne merged hne]
                  rw [hfil]
                rw [heq]
          · have hcb : (cur.isContainer : Bool) = false := by
              simpa using hc
            simp only [hcb, Bool.false_eq_true, if_false]
            by_cases he : cur = bv
            · rw [if_pos he, ih new out hnew hb.2, ← he]
              have heq : specObj new ((k, cur) :: rest) = specObj new rest := by
                simp only [specObj]
                rw [mapM_specEntry_eqscalar hnew hlk hrest hcb]
                have hdrop : ((JVal.lookupKey new k).isNone : Bool) = false := by
                  simp [hlk]
                simp only [List.filter_cons, hdrop, Bool.false_eq_true, if_false]
              rw [heq]
            · rw [if_neg he]
              constructor
              · intro hcontra; exact absurd hcontra (by simp)
              · intro hok
                exfalso
                simp only [specObj] at hok
                cases hmap : new.mapM (specEntry ((k, bv) :: rest)) with
                | error e2 => rw [hmap, exc_bind_error] at hok; simp at hok
                | ok l =>
                    obtain ⟨y, hy⟩ := mapM_ok_of_mem hmap (JVal.lookupKey_mem hlk)
                    simp [specEntry, JVal.lookupKey, hcb, he] at hy
      | none =>
          have hk_new : k ∉ keysOf new := JVal.lookupKey_eq_none.mp hlk
          have hnd' : (keysOf (new ++ [(k, bv)])).Nodup := by
            rw [JVal.keysOf_append]
            exact List.Nodup.append hnew (List.nodup_singleton _)
              (List.disjoint_singleton.mpr hk_new)
          rw [ih (new ++ [(k, bv)]) out hnd' hb.2]
          rw [specObj_fresh hlk hrest]

/-! ## Step equations and merge-level facts -/

theorem mergeObj_cons_none {new : List (String × JVal)} {k : String} (bv : JVal)
    {rest : List (String × JVal)} (h : JVal.lookupKey new k = none) :
    mergeObj new ((k, bv) :: rest) = mergeObj (new ++ [(k, bv)]) rest := by
  rw [mergeObj]
  simp only [h]

theorem mergeObj_cons_cont {new rest : List (String × JVal)} {k : String} {cur bv : JVal}
    (h : JVal.lookupKey new k = some cur) (hc : cur.isContainer = true) :
    mergeObj new ((k, bv) :: rest) =
      merge cur bv >>= fun merged => mergeObj (JVal.setKey new k merged) rest := by
  rw [mergeObj]
  simp only [h, hc, if_true]

theorem mergeObj_cons_eq {new rest : List (String × JVal)} {k : String} {cur bv : JVal}
    (h : JVal.lookupKey new k = some cur) (hc : cur.isContainer = false)
    (he : cur = bv) :
    mergeObj new ((k, bv) :: rest) = mergeObj new rest := by
  subst he
  rw [mergeObj]
  simp only [h, hc, Bool.false_eq_true, if_false]
  simp

theorem mergeObj_cons_conflict {new rest : List (String × JVal)} {k : String} {cur bv : JVal}
    (h : JVal.lookupKey new k = some cur) (hc : cur.isContainer = false)
    (hne : cur ≠ bv) :
    mergeObj new ((k, bv) :: rest) = .error (.conflict k cur bv) := by
  rw [mergeObj]
  simp only [h, hc, Bool.false_eq_true, if_false, hne, if_neg]

theorem merge_arr_arr (a b : List JVal) : merge (.arr a) (.arr b) = .ok (.arr (a ++ b)) := by
  rw [merge]

theorem merge_obj_obj (a b : List (String × JVal)) :
    merge (.obj a) (.obj b) = mergeObj a b >>= fun o => pure (.obj o) := by
  rw [merge]

def isArr : JVal → Bool
  | .arr _ => true
  | _ => false

def isObj : JVal → Bool
  | .obj _ => true
  | _ => false

/-- The final `else` of `merge`: any combination that is not
sequence/sequence and not mapping/mapping raises the shape error, naming
both values. -/
theorem merge_typeMismatch {a b : JVal}
    (h1 : ¬(isArr a = true ∧ isArr b = true))
    (h2 : ¬(isObj a = true ∧ isObj b = true)) :
    merge a b = .error (.typeMismatch a b) := by
  cases a <;> cases b <;> simp_all [isArr, isObj] <;> rw [merge] <;> simp

/-- Keys of `b` that are absent from the accumulator are appended one after
the other without further interaction. -/
theorem mergeObj_fresh_prefix :
    ∀ (b1 : List (String × JVal)) (new b2 : List (String × JVal)),
      (keysOf b1).Nodup → (∀ kv ∈ b1, kv.1 ∉ keysOf new) →
      mergeObj new (b1 ++ b2) = mergeObj (new ++ b1) b2 := by
  intro b1
  induction b1 with
  | nil => intro new b2 _ _; simp
  | cons hd t ih =>
      obtain ⟨k, bv⟩ := hd
      intro new b2 hnd hfr
      simp only [keysOf, List.map_cons, List.nodup_cons] at hnd
      have hk : k ∉ keysOf new := hfr (k, bv) (by simp)
      have hlk : JVal.lookupKey new k = none := JVal.lookupKey_eq_none.mpr hk
      rw [List.cons_append, mergeObj_cons_none bv hlk]
      have hstep := ih (new ++ [(k, bv)]) b2 hnd.2 ?_
      · rw [hstep, List.append_assoc]
        rfl
      · intro kv hkv
        rw [JVal.keysOf_append, List.mem_append]
        rintro (hin | hin)
        · exact hfr kv (by simp [hkv]) hin
        · have : kv.1 = k := by simpa [keysOf] using hin
          exact hnd.1 (this ▸ List.mem_map.mpr ⟨kv, hkv, rfl⟩)

/-- Mappings with disjoint keys merge to plain ordered concatenation. -/
theorem merge_disjoint {a b : List (String × JVal)}
    (hb : (keysOf b).Nodup) (hdisj : ∀ kv ∈ b, kv.1 ∉ keysOf a) :
    merge (.obj a) (.obj b) = .ok (.obj (a ++ b)) := by
  have hobj : mergeObj a b = .ok (a ++ b) := by
    have h := mergeObj_fresh_prefix b a [] hb hdisj
    rw [List.append_nil] at h
    rw [h, mergeObj_nil]
  rw [merge_obj_obj, hobj, exc_bind_ok, exc_pure]

/-- `merge` agrees with the spec's reference definition on every success,
for mappings with duplicate-free keys. -/
theorem merge_ok_iff_mergeSpec {a b : List (String × JVal)}
    (ha : (keysOf a).Nodup) (hb : (keysOf b).Nodup) (out : JVal) :
    merge (.obj a) (.obj b) = .ok out ↔ mergeSpec (.obj a) (.obj b) = .ok out := by
  rw [merge_obj_obj]
  simp only [mergeSpec]
  cases hmo : mergeObj a b with
  | error e =>
      cases hso : specObj a b with
      | error e2 => simp [exc_bind_error]
      | ok l =>
          have hcontra := (mergeObj_ok_iff b a l ha hb).mpr hso
          rw [hmo] at hcontra
          exact absurd hcontra (by simp)
  | ok l =>
      have hso : specObj a b = .ok l := (mergeObj_ok_iff b a l ha hb).mp hmo
      rw [hso]

/-- A shared key whose `a`-side value is a non-container and differs from
the `b`-side value makes `merge` fail: no success is possible. -/
theorem merge_conflict_not_ok {a b : List (String × JVal)} {k : String} {va vb : JVal}
    (ha : (keysOf a).Nodup) (hb : (keysOf b).Nodup)
    (hka : JVal.lookupKey a k = some va) (hkb : JVal.lookupKey b k = some vb)
    (hc : va.isContainer = false) (hne : va ≠ vb) :
    ∀ out, merge (.obj a) (.obj b) ≠ .ok out := by
  intro out hok
  rw [merge_obj_obj] at hok
  cases hmo : mergeObj a b with
  | error e => rw [hmo, exc_bind_error] at hok; exact absurd hok (by simp)
  | ok l =>
      have hso := (mergeObj_ok_iff b a l ha hb).mp hmo
      simp only [specObj] at hso
      cases hmap : a.mapM (specEntry b) with
      | error e2 => rw [hmap, exc_bind_error] at hso; exact absurd hso (by simp)
      | ok l2 =>
          obtain ⟨y, hy⟩ := mapM_ok_of_mem hmap (JVal.lookupKey_mem hka)
          simp [specEntry, hkb, hc, hne] at hy

theorem keysOf_cons (k : String) (v : JVal) (l : List (String × JVal)) :
    keysOf ((k, v) :: l) = k :: keysOf l := rfl

/-- When every `b`-key before the shared key `k` is absent from `a`, and
`a` carries a non-container value under `k` different from `b`'s, `merge`
raises the conflict naming the key and both values. -/
theorem merge_conflict_error {a b1 b2 : List (String × JVal)} {k : String} {va vb : JVal}
    (hb1 : (keysOf b1).Nodup)
    (hfr : ∀ kv ∈ b1, kv.1 ∉ keysOf a)
    (hka : JVal.lookupKey a k = some va)
    (hc : va.isContainer = false) (hne : va ≠ vb) :
    merge (.obj a) (.obj (b1 ++ (k, vb) :: b2)) = .error (.conflict k va vb) := by
  rw [merge_obj_obj, mergeObj_fresh_prefix b1 a ((k, vb) :: b2) hb1 hfr]
  have hlk : JVal.lookupKey (a ++ b1) k = some va := JVal.lookupKey_append_of_some hka
  rw [mergeObj_cons_conflict hlk hc hne, exc_bind_error]

/-- When the shared key `k` carries the same non-container value on both
sides and every other `b`-key is absent from `a`, the merge succeeds and
the shared value is retained once. -/
theorem merge_shared_equal {a b1 b2 : List (String × JVal)} {k : String} {va : JVal}
    (hb : (keysOf (b1 ++ (k, va) :: b2)).Nodup)
    (hfr : ∀ kv ∈ b1 ++ b2, kv.1 ∉ keysOf a)
    (hka : JVal.lookupKey a k = some va)
    (hc : va.isContainer = false) :
    merge (.obj a) (.obj (b1 ++ (k, va) :: b2)) = .ok (.obj (a ++ b1 ++ b2)) := by
  rw [JVal.keysOf_append, keysOf_cons] at hb
  have hb1 : (keysOf b1).Nodup := hb.of_append_left
  have hbr : (k :: keysOf b2).Nodup := hb.of_append_right
  have hdisj := List.disjoint_of_nodup_append hb
  have hb2 : (keysOf b2).Nodup := (List.nodup_cons.mp hbr).2
  have hfr1 : ∀ kv ∈ b1, kv.1 ∉ keysOf a := fun kv hkv => hfr kv (by simp [hkv])
  rw [merge_obj_obj, mergeObj_fresh_prefix b1 a ((k, va) :: b2) hb1 hfr1]
  have hlk : JVal.lookupKey (a ++ b1) k = some va := JVal.lookupKey_append_of_some hka
  rw [mergeObj_cons_eq hlk hc rfl]
  have hfr2 : ∀ kv ∈ b2, kv.1 ∉ keysOf (a ++ b1) := by
    intro kv hkv
    rw [JVal.keysOf_append, List.mem_append]
    rintro (hin | hin)
    · exact hfr kv (by simp [hkv]) hin
    · exact hdisj hin (by simp [List.mem_map.mpr ⟨kv, hkv, rfl⟩, keysOf])
  have h2 := mergeObj_fresh_prefix b2 (a ++ b1) [] hb2 hfr2
  rw [List.append_nil] at h2
  rw [h2, mergeObj_nil, exc_bind_ok, exc_pure]

/-! ## The shape invariant that keeps run-merging total

Every wire fragment merged inside a run is an object whose first entry is
`("role", r)` with the run's single role string, and whose remaining
entries all hold sequences.  Merging preserves this shape: the shared
`"role"` scalar is equal on both sides, every other shared key holds two
sequences. -/

def RoleArrEntries (kvs : List (String × JVal)) : Prop :=
  ∀ kv ∈ kvs, kv.1 ≠ "role" ∧ ∃ l, kv.2 = JVal.arr l

def WireShape (r : String) (v : JVal) : Prop :=
  ∃ kvs, v = .obj (("role", .str r) :: kvs) ∧ RoleArrEntries kvs

theorem RoleArrEntries_setKey {kvs : List (String × JVal)} {k : String} {l : List JVal}
    (hk : k ≠ "role") (h : RoleArrEntries kvs) :
    RoleArrEntries (JVal.setKey kvs k (.arr l)) := by
  intro kv hkv
  rcases JVal.mem_setKey hkv with hin | hev
  · exact h kv hin
  · subst hev
    exact ⟨hk, l, rfl⟩

theorem RoleArrEntries_append {k1 k2 : List (String × JVal)}
    (h1 : RoleArrEntries k1) (h2 : RoleArrEntries k2) :
    RoleArrEntries (k1 ++ k2) := by
  intro kv hkv
  rcases List.mem_append.mp hkv with h | h
  · exact h1 kv h
  · exact h2 kv h

theorem mergeObj_roleArr (r : String) :
    ∀ (bs acc : List (String × JVal)), RoleArrEntries acc → RoleArrEntries bs →
      ∃ out, mergeObj (("role", .str r) :: acc) bs = .ok out ∧
        ∃ acc2, out = ("role", .str r) :: acc2 ∧ RoleArrEntries acc2 := by
  intro bs
  induction bs with
  | nil =>
      intro acc ha _
      exact ⟨("role", .str r) :: acc, mergeObj_nil _, acc, rfl, ha⟩
  | cons hd rest ih =>
      obtain ⟨k, bv⟩ := hd
      intro acc ha hb
      obtain ⟨hk, l, hbv⟩ := hb (k, bv) (by simp)
      simp only at hbv
      subst hbv
      have hrole : ("role" : String) ≠ k := fun h => hk h.symm
      have hstep : JVal.lookupKey (("role", JVal.str r) :: acc) k = JVal.lookupKey acc k := by
        rw [JVal.lookupKey, if_neg hrole]
      have hbrest : RoleArrEntries rest := fun kv hkv => hb kv (by simp [hkv])
      cases hacc : JVal.lookupKey acc k with
      | some cur =>
          obtain ⟨hkne, l2, hcur⟩ := ha (k, cur) (JVal.lookupKey_mem hacc)
          simp only at hcur
          subst hcur
          rw [mergeObj_cons_cont (hstep.trans hacc) rfl, merge_arr_arr, exc_bind_ok]
          have hsk : JVal.setKey (("role", JVal.str r) :: acc) k (.arr (l2 ++ l)) =
              ("role", JVal.str r) :: JVal.setKey acc k (.arr (l2 ++ l)) := by
            rw [JVal.setKey, if_neg hrole]
          rw [hsk]
          exact ih (JVal.setKey acc k (.arr (l2 ++ l)))
            (RoleArrEntries_setKey hk ha) hbrest
      | none =>
          have hnone : JVal.lookupKey (("role", JVal.str r) :: acc) k = none :=
            hstep.trans hacc
          rw [mergeObj_cons_none _ hnone, List.cons_append]
          exact ih (acc ++ [(k, .arr l)])
            (RoleArrEntries_append ha (fun kv hkv => by
              simp at hkv
              subst hkv
              exact ⟨hk, l, rfl⟩))
            hbrest

theorem merge_WireShape {r : String} {a b : JVal}
    (ha : WireShape r a) (hb : WireShape r b) :
    ∃ c, merge a b = .ok c ∧ WireShape r c := by
  obtain ⟨kas, rfl, hka⟩ := ha
  obtain ⟨kbs, rfl, hkb⟩ := hb
  rw [merge_obj_obj]
  have h0 : JVal.lookupKey (("role", JVal.str r) :: kas) "role" = some (.str r) := by
    rw [JVal.lookupKey, if_pos rfl]
  rw [mergeObj_cons_eq h0 rfl rfl]
  obtain ⟨out, hout, acc2, hacc2, hsh⟩ := mergeObj_roleArr r kbs kas hka hkb
  rw [hout, exc_bind_ok, exc_pure]
  exact ⟨.obj out, rfl, acc2, by rw [hacc2], hsh⟩

theorem foldlM_merge_WireShape {r : String} (conv : MessagePart → JVal) :
    ∀ (parts : List MessagePart) (acc : JVal), WireShape r acc →
      (∀ p ∈ parts, WireShape r (conv p)) →
      ∃ c, parts.foldlM (fun a p => merge a (conv p)) acc = .ok c ∧ WireShape r c := by
  intro parts
  induction parts with
  | nil => intro acc hacc _; exact ⟨acc, rfl, hacc⟩
  | cons p rest ih =>
      intro acc hacc hall
      obtain ⟨c, hc, hcs⟩ := merge_WireShape hacc (hall p (by simp))
      rw [List.foldlM_cons, hc, exc_bind_ok]
      exact ih c hcs (fun q hq => hall q (by simp [hq]))

/-! ## Wire fragments of the individual parts carry the shape -/

theorem WireShape_to_openai_userText (t : String) :
    WireShape "user" (MessagePart.to_openai (.TextMessage t true)) := by
  refine ⟨[("content", .arr [.obj [("type", .str "text"), ("text", .str t)]])], rfl, ?_⟩
  intro kv hkv
  simp at hkv
  subst hkv
  exact ⟨by simp, _, rfl⟩

theorem WireShape_to_openai_assistantText (t : String) :
    WireShape "assistant" (MessagePart.to_openai (.TextMessage t false)) := by
  refine ⟨[("content", .arr [.obj [("type", .str "text"), ("text", .str t)]])], rfl, ?_⟩
  intro kv hkv
  simp at hkv
  subst hkv
  exact ⟨by simp, _, rfl⟩

theorem WireShape_to_openai_image (b : String) :
    WireShape "user" (MessagePart.to_openai (.ImageMessage b)) := by
  refine ⟨[("content", .arr [.obj [("type", .str "image_url"),
    ("image_url", .obj [("url", .str ("data:image/png;base64," ++ b))])]])], rfl, ?_⟩
  intro kv hkv
  simp at hkv
  subst hkv
  exact ⟨by simp, _, rfl⟩

theorem WireShape_to_openai_toolRequest (n : String) (ps : List (String × JVal)) (i : String) :
    WireShape "assistant" (MessagePart.to_openai (.ToolRequestMessage n ps i)) := by
  refine ⟨[("tool_calls", .arr [.obj [("id", .str i), ("type", .str "function"),
    ("function", .obj [("name", .str n), ("arguments", .str (dumps (.obj ps)))])]])], rfl, ?_⟩
  intro kv hkv
  simp at hkv
  subst hkv
  exact ⟨by simp, _, rfl⟩

theorem WireShape_to_anthropic (p : MessagePart) :
    WireShape (if is_user_message p then "user" else "assistant") p.to_anthropic := by
  cases p with
  | TextMessage t u =>
      cases u with
      | true =>
          refine ⟨[("content", .arr [.obj [("type", .str "text"), ("text", .str t)]])],
            rfl, ?_⟩
          intro kv hkv
          simp at hkv
          subst hkv
          exact ⟨by simp, _, rfl⟩
      | false =>
          refine ⟨[("content", .arr [.obj [("type", .str "text"), ("text", .str t)]])],
            rfl, ?_⟩
          intro kv hkv
          simp at hkv
          subst hkv
          exact ⟨by simp, _, rfl⟩
  | ImageMessage b =>
      refine ⟨[("content", .arr [.obj [("type", .str "image"),
        ("source", .obj [("type", .str "base64"), ("media_type", .str "image/png"),
                         ("data", .str b)])]])], rfl, ?_⟩
      intro kv hkv
      simp at hkv
      subst hkv
      exact ⟨by simp, _, rfl⟩
  | ToolRequestMessage n ps i =>
      refine ⟨[("content", .arr [.obj [("type", .str "tool_use"), ("name", .str n),
        ("input", .obj ps), ("id", .str i)]])], rfl, ?_⟩
      intro kv hkv
      simp at hkv
      subst hkv
      exact ⟨by simp, _, rfl⟩
  | ToolOutputMessage i n c cc =>
      refine ⟨[("content", .arr [.obj [("type", .str "tool_result"),
        ("tool_use_id", .str i), ("content", .str c)]])], rfl, ?_⟩
      intro kv hkv
      simp at hkv
      subst hkv
      exact ⟨by simp, _, rfl⟩

/-! ## Totality of the two normalizers -/

theorem to_openai_total (h : MessageHistory) :
    ∃ l, MessageHistory.to_openai h = .ok l := by
  induction h using MessageHistory.to_openai.induct with
  | case1 => exact ⟨[], by rw [MessageHistory.to_openai]⟩
  | case2 m rest hu ih =>
      obtain ⟨t, hm⟩ : ∃ t, m = .TextMessage t true := by
        cases m <;> simp [isUserText] at hu
        next t u => exact ⟨t, by simp [hu]⟩
      subst hm
      obtain ⟨w, hw, _⟩ := foldlM_merge_WireShape MessagePart.to_openai
        (rest.takeWhile isImageMessage) _ (WireShape_to_openai_userText t)
        (fun p hp => by
          have hpi := List.mem_takeWhile_imp hp
          obtain ⟨b, hb⟩ : ∃ b, p = .ImageMessage b := by
            cases p <;> simp [isImageMessage] at hpi
            next b => exact ⟨b, rfl⟩
          subst hb
          exact WireShape_to_openai_image b)
      obtain ⟨ws, hws⟩ := ih
      refine ⟨w :: ws, ?_⟩
      rw [MessageHistory.to_openai]
      simp only [isUserText, if_true]
      rw [hw, exc_bind_ok, hws, exc_bind_ok]
      rfl
  | case3 m rest hnu ha ih =>
      obtain ⟨t, hm⟩ : ∃ t, m = .TextMessage t false := by
        cases m <;> simp [isUserText, isAssistantText] at hnu ha
        next t u => exact ⟨t, by simp [ha]⟩
      subst hm
      obtain ⟨w, hw, _⟩ := foldlM_merge_WireShape MessagePart.to_openai
        (rest.takeWhile isToolRequestMessage) _ (WireShape_to_openai_assistantText t)
        (fun p hp => by
          have hpi := List.mem_takeWhile_imp hp
          obtain ⟨n, ps, i, hb⟩ : ∃ n ps i, p = .ToolRequestMessage n ps i := by
            cases p <;> simp [isToolRequestMessage] at hpi
            next n ps i => exact ⟨n, ps, i, rfl⟩
          subst hb
          exact WireShape_to_openai_toolRequest n ps i)
      obtain ⟨ws, hws⟩ := ih
      refine ⟨w :: ws, ?_⟩
      rw [MessageHistory.to_openai]
      simp only [hnu, Bool.false_eq_true, if_false, ha, if_true]
      rw [hw, exc_bind_ok, hws, exc_bind_ok]
      rfl
  | case4 m rest hnu hna ih =>
      obtain ⟨ws, hws⟩ := ih
      refine ⟨m.to_openai :: ws, ?_⟩
      rw [MessageHistory.to_openai]
      simp only [hnu, Bool.false_eq_true, if_false, hna]
      rw [hws, exc_bind_ok]
      rfl

theorem to_anthropic_total (h : MessageHistory) :
    ∃ l, MessageHistory.to_anthropic h = .ok l := by
  induction h using MessageHistory.to_anthropic.induct with
  | case1 => exact ⟨[], by rw [MessageHistory.to_anthropic]⟩
  | case2 m rest hu ih =>
      have hws : WireShape "user" m.to_anthropic := by
        simpa [hu] using WireShape_to_anthropic m
      obtain ⟨w, hw, _⟩ := foldlM_merge_WireShape MessagePart.to_anthropic
        (rest.takeWhile is_user_message) _ hws
        (fun p hp => by
          have hpi := List.mem_takeWhile_imp hp
          simpa [hpi] using WireShape_to_anthropic p)
      obtain ⟨ws, hrec⟩ := ih
      refine ⟨w :: ws, ?_⟩
      rw [MessageHistory.to_anthropic]
      simp only [hu, if_true]
      rw [hw, exc_bind_ok, hrec, exc_bind_ok]
      rfl
  | case3 m rest hu ih =>
      have hmf : is_user_message m = false := by
        revert hu
        cases is_user_message m <;> simp
      have hws : WireShape "assistant" m.to_anthropic := by
        simpa [hmf] using WireShape_to_anthropic m
      obtain ⟨w, hw, _⟩ := foldlM_merge_WireShape MessagePart.to_anthropic
        (rest.takeWhile (fun x => !is_user_message x)) _ hws
        (fun p hp => by
          have hpi := List.mem_takeWhile_imp hp
          have hpf : is_user_message p = false := by
            revert hpi
            cases is_user_message p <;> simp
          simpa [hpf] using WireShape_to_anthropic p)
      obtain ⟨ws, hrec⟩ := ih
      refine ⟨w :: ws, ?_⟩
      rw [MessageHistory.to_anthropic]
      simp only [hmf, Bool.false_eq_true, if_false]
      rw [hw, exc_bind_ok, hrec, exc_bind_ok]
      rfl

/-! ## Provider-A grouping: normalizer vs run decomposition -/

theorem to_openai_eq_spec (h : MessageHistory) :
    MessageHistory.to_openai h = to_openai_spec h := by
  induction h using MessageHistory.to_openai.induct with
  | case1 =>
      rw [MessageHistory.to_openai]
      simp only [to_openai_spec]
      rw [openaiRuns]
      rfl
  | case2 m rest hu ih =>
      simp only [to_openai_spec] at ih ⊢
      rw [MessageHistory.to_openai, openaiRuns]
      simp only [hu, if_true]
      rw [List.mapM_cons, ih]
      simp only [wireOfRun]
  | case3 m rest hnu ha ih =>
      simp only [to_openai_spec] at ih ⊢
      rw [MessageHistory.to_openai, openaiRuns]
      simp only [hnu, Bool.false_eq_true, if_false, ha, if_true]
      rw [List.mapM_cons, ih]
      simp only [wireOfRun]
  | case4 m rest hnu hna ih =>
      simp only [to_openai_spec] at ih ⊢
      rw [MessageHistory.to_openai, openaiRuns]
      simp only [hnu, Bool.false_eq_true, if_false, hna]
      rw [List.mapM_cons, ih]
      simp only [wireOfRun, List.foldlM_nil, exc_pure, exc_bind_ok]

/-- The runs partition the history: opening parts and absorbed tails
concatenate back, in order, to the original list. -/
theorem openaiRuns_join (h : MessageHistory) :
    ((openaiRuns h).map fun run => run.1 :: run.2).flatten = h := by
  induction h using openaiRuns.induct with
  | case1 => rw [openaiRuns]; rfl
  | case2 m rest hu ih =>
      rw [openaiRuns]
      simp only [hu, if_true, List.map_cons, List.flatten_cons]
      rw [ih]
      simp [List.takeWhile_append_dropWhile]
  | case3 m rest hnu ha ih =>
      rw [openaiRuns]
      simp only [hnu, Bool.false_eq_true, if_false, ha, if_true, List.map_cons,
        List.flatten_cons]
      rw [ih]
      simp [List.takeWhile_append_dropWhile]
  | case4 m rest hnu hna ih =>
      rw [openaiRuns]
      simp only [hnu, Bool.false_eq_true, if_false, hna, List.map_cons, List.flatten_cons]
      rw [ih]
      simp

/-- Each run has one of the three claimed shapes: user text followed by
images only, assistant text followed by tool requests only, or a lone
non-text part with an empty tail. -/
theorem openaiRuns_shape (h : MessageHistory) :
    ∀ run ∈ openaiRuns h,
      (isUserText run.1 = true ∧ ∀ p ∈ run.2, isImageMessage p = true) ∨
      (isAssistantText run.1 = true ∧ ∀ p ∈ run.2, isToolRequestMessage p = true) ∨
      (isUserText run.1 = false ∧ isAssistantText run.1 = false ∧ run.2 = []) := by
  induction h using openaiRuns.induct with
  | case1 => rw [openaiRuns]; intro run hrun; simp at hrun
  | case2 m rest hu ih =>
      rw [openaiRuns]
      simp only [hu, if_true]
      intro run hrun
      rcases List.mem_cons.mp hrun with hrun | hrun
      · subst hrun
        exact Or.inl ⟨hu, fun p hp => List.mem_takeWhile_imp hp⟩
      · exact ih run hrun
  | case3 m rest hnu ha ih =>
      rw [openaiRuns]
      simp only [hnu, Bool.false_eq_true, if_false, ha, if_true]
      intro run hrun
      rcases List.mem_cons.mp hrun with hrun | hrun
      · subst hrun
        exact Or.inr (Or.inl ⟨ha, fun p hp => List.mem_takeWhile_imp hp⟩)
      · exact ih run hrun
  | case4 m rest hnu hna ih =>
      rw [openaiRuns]
      simp only [hnu, Bool.false_eq_true, if_false, hna]
      intro run hrun
      rcases List.mem_cons.mp hrun with hrun | hrun
      · subst hrun
        refine Or.inr (Or.inr ⟨by simpa using hnu, by simpa using hna, rfl⟩)
      · exact ih run hrun

/-- The opening part of the first run is the first part of the history. -/
theorem openaiRuns_head (l : MessageHistory) :
    ((openaiRuns l).head?.map Prod.fst) = l.head? := by
  cases l with
  | nil => rw [openaiRuns]; rfl
  | cons m rest =>
      rw [openaiRuns]
      by_cases h1 : isUserText m
      · simp [h1]
      · by_cases h2 : isAssistantText m
        · simp [h1, h2]
        · simp [h1, h2]

/-- Runs are maximal: a user-text run is never followed by a run opening
with an image, an assistant-text run never by a run opening with a tool
request. -/
theorem openaiRuns_maximal (h : MessageHistory) :
    List.Chain'
      (fun r1 r2 =>
        (isUserText r1.1 = true → isImageMessage r2.1 = false) ∧
        (isAssistantText r1.1 = true → isToolRequestMessage r2.1 = false))
      (openaiRuns h) := by
  induction h using openaiRuns.induct with
  | case1 => rw [openaiRuns]; exact List.chain'_nil
  | case2 m rest hu ih =>
      rw [openaiRuns]
      simp only [hu, if_true]
      rw [List.chain'_cons']
      refine ⟨?_, ih⟩
      intro r2 hr2
      have hh := openaiRuns_head (rest.dropWhile isImageMessage)
      have hr2h : (rest.dropWhile isImageMessage).head? = some r2.1 := by
        rw [← hh, Option.mem_def.mp hr2]
        rfl
      constructor
      · intro _
        have := List.head?_dropWhile_not isImageMessage rest
        rw [hr2h] at this
        exact this
      · intro hcontra
        exfalso
        cases m <;> simp_all [isUserText, isAssistantText]
  | case3 m rest hnu ha ih =>
      rw [openaiRuns]
      simp only [hnu, Bool.false_eq_true, if_false, ha, if_true]
      rw [List.chain'_cons']
      refine ⟨?_, ih⟩
      intro r2 hr2
      have hh := openaiRuns_head (rest.dropWhile isToolRequestMessage)
      have hr2h : (rest.dropWhile isToolRequestMessage).head? = some r2.1 := by
        rw [← hh, Option.mem_def.mp hr2]
        rfl
      constructor
      · intro hcontra
        exfalso
        cases m <;> simp_all [isUserText, isAssistantText]
      · intro _
        have := List.head?_dropWhile_not isToolRequestMessage rest
        rw [hr2h] at this
        exact this
  | case4 m rest hnu hna ih =>
      rw [openaiRuns]
      simp only [hnu, Bool.false_eq_true, if_false, hna]
      rw [List.chain'_cons']
      refine ⟨?_, ih⟩
      intro r2 _
      constructor
      · intro hcontra
        exact absurd hcontra (by simpa using hnu)
      · intro hcontra
        exact absurd hcontra (by simpa using hna)

/-! ## Provider-B grouping: normalizer vs run decomposition -/

theorem to_anthropic_eq_spec (h : MessageHistory) :
    MessageHistory.to_anthropic h = to_anthropic_spec h := by
  induction h using MessageHistory.to_anthropic.induct with
  | case1 =>
      rw [MessageHistory.to_anthropic]
      simp only [to_anthropic_spec]
      rw [anthropicRuns]
      rfl
  | case2 m rest hu ih =>
      simp only [to_anthropic_spec] at ih ⊢
      rw [MessageHistory.to_anthropic, anthropicRuns]
      simp only [hu, if_true]
      rw [List.mapM_cons, ih]
      simp only [wireOfRun]
  | case3 m rest hu ih =>
      simp only [to_anthropic_spec] at ih ⊢
      rw [MessageHistory.to_anthropic, anthropicRuns]
      simp only [hu, Bool.false_eq_true, if_false]
      rw [List.mapM_cons, ih]
      simp only [wireOfRun]

theorem anthropicRuns_join (h : MessageHistory) :
    ((anthropicRuns h).map fun run => run.1 :: run.2).flatten = h := by
  induction h using anthropicRuns.induct with
  | case1 => rw [anthropicRuns]; rfl
  | case2 m rest hu ih =>
      rw [anthropicRuns]
      simp only [hu, if_true, List.map_cons, List.flatten_cons]
      rw [ih]
      simp [List.takeWhile_append_dropWhile]
  | case3 m rest hu ih =>
      rw [anthropicRuns]
      simp only [hu, Bool.false_eq_true, if_false, List.map_cons, List.flatten_cons]
      rw [ih]
      simp [List.takeWhile_append_dropWhile]

/-- Every absorbed part of a provider-B run shares the classification of
the run's opening part. -/
theorem anthropicRuns_classification (h : MessageHistory) :
    ∀ run ∈ anthropicRuns h, ∀ p ∈ run.2,
      is_user_message p = is_user_message run.1 := by
  induction h using anthropicRuns.induct with
  | case1 => rw [anthropicRuns]; intro run hrun; simp at hrun
  | case2 m rest hu ih =>
      rw [anthropicRuns]
      simp only [hu, if_true]
      intro run hrun
      rcases List.mem_cons.mp hrun with hrun | hrun
      · subst hrun
        intro p hp
        rw [List.mem_takeWhile_imp hp, hu]
      · exact ih run hrun
  | case3 m rest hu ih =>
      rw [anthropicRuns]
      simp only [hu, Bool.false_eq_true, if_false]
      intro run hrun
      rcases List.mem_cons.mp hrun with hrun | hrun
      · subst hrun
        intro p hp
        have hpf := List.mem_takeWhile_imp hp
        have hmf : is_user_message m = false := by
          revert hu
          cases is_user_message m <;> simp
        rw [hmf]
        revert hpf
        cases is_user_message p <;> simp
      · exact ih run hrun

theorem anthropicRuns_head (l : MessageHistory) :
    ((anthropicRuns l).head?.map Prod.fst) = l.head? := by
  cases l with
  | nil => rw [anthropicRuns]; rfl
  | cons m rest =>
      rw [anthropicRuns]
      by_cases h1 : is_user_message m
      · simp [h1]
      · simp [h1]

/-- Provider-B runs are maximal: consecutive runs open with opposite
classifications. -/
theorem anthropicRuns_alternate (h : MessageHistory) :
    List.Chain'
      (fun r1 r2 => is_user_message r2.1 = !is_user_message r1.1)
      (anthropicRuns h) := by
  induction h using anthropicRuns.induct with
  | case1 => rw [anthropicRuns]; exact List.chain'_nil
  | case2 m rest hu ih =>
      rw [anthropicRuns]
      simp only [hu, if_true]
      rw [List.chain'_cons']
      refine ⟨?_, ih⟩
      intro r2 hr2
      have hh := anthropicRuns_head (rest.dropWhile is_user_message)
      have hr2h : (rest.dropWhile is_user_message).head? = some r2.1 := by
        rw [← hh, Option.mem_def.mp hr2]
        rfl
      have hnot := List.head?_dropWhile_not is_user_message rest
      rw [hr2h] at hnot
      simp only [hu]
      simpa using hnot
  | case3 m rest hu ih =>
      rw [anthropicRuns]
      simp only [hu, Bool.false_eq_true, if_false]
      rw [List.chain'_cons']
      refine ⟨?_, ih⟩
      intro r2 hr2
      have hh := anthropicRuns_head (rest.dropWhile (fun x => !is_user_message x))
      have hr2h : (rest.dropWhile (fun x => !is_user_message x)).head? = some r2.1 := by
        rw [← hh, Option.mem_def.mp hr2]
        rfl
      have hnot := List.head?_dropWhile_not (fun x => !is_user_message x) rest
      rw [hr2h] at hnot
      have hmf : is_user_message m = false := by
        revert hu
        cases is_user_message m <;> simp
      rw [hmf]
      simpa using hnot

/-! ## Counting provider-A wire messages -/

theorem mapM_ok_length {α ε β : Type} {l : List α} {f : α → Except ε β} {out : List β}
    (h : l.mapM f = .ok out) : out.length = l.length := by
  induction l generalizing out with
  | nil =>
      rw [List.mapM_nil, exc_pure] at h
      have h2 : ([] : List β) = out := by injection h
      simp [← h2]
  | cons a rest ih =>
      rw [List.mapM_cons] at h
      cases hfa : f a with
      | error e => rw [hfa, exc_bind_error] at h; exact absurd h (by simp)
      | ok y =>
          rw [hfa, exc_bind_ok] at h
          cases hrest : rest.mapM f with
          | error e => rw [hrest, exc_bind_error] at h; exact absurd h (by simp)
          | ok ys =>
              rw [hrest, exc_bind_ok, exc_pure] at h
              have hy : y :: ys = out := by injection h
              subst hy
              simp [ih hrest]

theorem openaiRuns_length_le (h : MessageHistory) :
    (openaiRuns h).length ≤ h.length := by
  induction h using openaiRuns.induct with
  | case1 => rw [openaiRuns]; simp
  | case2 m rest hu ih =>
      rw [openaiRuns]
      simp only [hu, if_true, List.length_cons]
      have hd : (rest.dropWhile isImageMessage).length ≤ rest.length :=
        (List.dropWhile_sublist _).length_le
      omega
  | case3 m rest hnu ha ih =>
      rw [openaiRuns]
      simp only [hnu, Bool.false_eq_true, if_false, ha, if_true, List.length_cons]
      have hd : (rest.dropWhile isToolRequestMessage).length ≤ rest.length :=
        (List.dropWhile_sublist _).length_le
      omega
  | case4 m rest hnu hna ih =>
      rw [openaiRuns]
      simp only [hnu, Bool.false_eq_true, if_false, hna, List.length_cons]
      omega

/-- Two adjacent parts are eligible to merge exactly when the first opens a
run that absorbs the second. -/
def eligiblePair (m1 m2 : MessagePart) : Bool :=
  (isUserText m1 && isImageMessage m2) || (isAssistantText m1 && isToolRequestMessage m2)

theorem openaiRuns_length_eq_iff (h : MessageHistory) :
    (openaiRuns h).length = h.length ↔
      List.Chain' (fun a b => eligiblePair a b = false) h := by
  induction h using openaiRuns.induct with
  | case1 => rw [openaiRuns]; simp
  | case2 m rest hu ih =>
      obtain ⟨t0, hm⟩ : ∃ t0, m = .TextMessage t0 true := by
        cases m <;> simp [isUserText] at hu
        next t u => exact ⟨t, by simp [hu]⟩
      rw [openaiRuns]
      simp only [hu, if_true, List.length_cons]
      cases rest with
      | nil =>
          simp only [List.dropWhile_nil] at ih ⊢
          rw [openaiRuns]
          simp
      | cons x t =>
          by_cases hx : isImageMessage x
          · rw [List.dropWhile_cons_of_pos hx] at *
            constructor
            · intro hlen
              exfalso
              have h1 : (openaiRuns (t.dropWhile isImageMessage)).length ≤ t.length :=
                le_trans (openaiRuns_length_le _) ((List.dropWhile_sublist _).length_le)
              simp only [List.length_cons] at hlen
              omega
            · intro hch
              exfalso
              have hpair := (List.chain'_cons.mp hch).1
              subst hm
              simp [eligiblePair, isUserText, hx] at hpair
          · rw [List.dropWhile_cons_of_neg hx] at *
            constructor
            · intro hlen
              rw [List.chain'_cons']
              refine ⟨?_, ih.mp (by simpa using hlen)⟩
              intro y hy
              have hxy : x = y := by simpa using hy
              subst hxy
              subst hm
              simp [eligiblePair, isUserText, isAssistantText]
              simpa using hx
            · intro hch
              have := ih.mpr (List.chain'_cons'.mp hch).2
              simpa using this
  | case3 m rest hnu ha ih =>
      obtain ⟨t0, hm⟩ : ∃ t0, m = .TextMessage t0 false := by
        cases m <;> simp [isUserText, isAssistantText] at hnu ha
        next t u => exact ⟨t, by simp [ha]⟩
      rw [openaiRuns]
      simp only [hnu, Bool.false_eq_true, if_false, ha, if_true, List.length_cons]
      cases rest with
      | nil =>
          simp only [List.dropWhile_nil] at ih ⊢
          rw [openaiRuns]
          simp
      | cons x t =>
          by_cases hx : isToolRequestMessage x
          · rw [List.dropWhile_cons_of_pos hx] at *
            constructor
            · intro hlen
              exfalso
              have h1 : (openaiRuns (t.dropWhile isToolRequestMessage)).length ≤ t.length :=
                le_trans (openaiRuns_length_le _) ((List.dropWhile_sublist _).length_le)
              simp only [List.length_cons] at hlen
              omega
            · intro hch
              exfalso
              have hpair := (List.chain'_cons.mp hch).1
              subst hm
              simp [eligiblePair, isAssistantText, hx] at hpair
          · rw [List.dropWhile_cons_of_neg hx] at *
            constructor
            · intro hlen
              rw [List.chain'_cons']
              refine ⟨?_, ih.mp (by simpa using hlen)⟩
              intro y hy
              have hxy : x = y := by simpa using hy
              subst hxy
              subst hm
              simp [eligiblePair, isUserText, isAssistantText]
              simpa using hx
            · intro hch
              have := ih.mpr (List.chain'_cons'.mp hch).2
              simpa using this
  | case4 m rest hnu hna ih =>
      rw [openaiRuns]
      simp only [hnu, Bool.false_eq_true, if_false, hna, List.length_cons]
      have hmu : isUserText m = false := by simpa using hnu
      have hma : isAssistantText m = false := by simpa using hna
      constructor
      · intro hlen
        rw [List.chain'_cons']
        refine ⟨?_, ih.mp (by simpa using hlen)⟩
        intro y _
        simp [eligiblePair, hmu, hma]
      · intro hch
        have := ih.mpr (List.chain'_cons'.mp hch).2
        simpa using this

/-! ## Serialization round trip -/

/-- The discriminator value of each variant. -/
def MessagePart.typeTag : MessagePart → String
  | .TextMessage .. => "text"
  | .ImageMessage .. => "image"
  | .ToolRequestMessage .. => "toolrequest"
  | .ToolOutputMessage .. => "tooloutput"

theorem validatePart_model_dump (p : MessagePart) :
    MessagePart.validatePart p.model_dump = some p := by
  cases p <;> rfl

theorem model_dump_typeTag (p : MessagePart) :
    ∃ kvs, p.model_dump = .obj (("type", .str p.typeTag) :: kvs) := by
  cases p <;> exact ⟨_, rfl⟩

theorem model_roundtrip (h : MessageHistory) :
    MessageHistory.model_validate (MessageHistory.model_dump h) = some h := by
  induction h with
  | nil => rfl
  | cons p rest ih =>
      simp only [MessageHistory.model_dump, List.map_cons,
        MessageHistory.model_validate, List.mapM_cons] at ih ⊢
      rw [validatePart_model_dump p]
      simp only [Option.bind_eq_bind, Option.some_bind] at ih ⊢
      rw [ih]
      rfl

/-! ## Tool-derivation facts -/

theorem mapM_paramField_ok (fn : String) :
    ∀ ps : List PyParam, (∀ p ∈ ps, p.annotation ≠ none) →
      ∃ fields, ps.mapM (paramField fn) = .ok fields := by
  intro ps
  induction ps with
  | nil => intro _; exact ⟨[], rfl⟩
  | cons p t ih =>
      intro h
      obtain ⟨ty, hty⟩ : ∃ ty, p.annotation = some ty := by
        cases hp : p.annotation with
        | none => exact absurd hp (h p (by simp))
        | some ty => exact ⟨ty, rfl⟩
      obtain ⟨fs, hfs⟩ := ih (fun q hq => h q (by simp [hq]))
      refine ⟨{ name := p.name, type := ty, required := p.default.isNone,
                default := p.default } :: fs, ?_⟩
      rw [List.mapM_cons, paramField, hty]
      rw [hfs, exc_bind_ok]
      rfl

theorem mapM_paramField_error (fn : String) :
    ∀ ps : List PyParam, (∃ p ∈ ps, p.annotation = none) →
      ∃ pn, ps.mapM (paramField fn) = .error (.untypedParameter pn fn) := by
  intro ps
  induction ps with
  | nil => intro h; simp at h
  | cons p t ih =>
      intro h
      cases hp : p.annotation with
      | none =>
          refine ⟨p.name, ?_⟩
          rw [List.mapM_cons, paramField, hp]
          rfl
      | some ty =>
          obtain ⟨q, hq, hqa⟩ := h
          rcases List.mem_cons.mp hq with hq | hq
          · subst hq; rw [hp] at hqa; exact absurd hqa (by simp)
          · obtain ⟨pn, hpn⟩ := ih ⟨q, hq, hqa⟩
            refine ⟨pn, ?_⟩
            rw [List.mapM_cons, paramField, hp, hpn]
            rfl

theorem create_model_ok_of_annotated (f : FuncSig)
    (h : ∀ p ∈ f.params, p.annotation ≠ none) :
    ∃ fields, create_model_from_function f = .ok fields := by
  simp only [create_model_from_function]
  exact mapM_paramField_ok f.name f.params h

theorem create_model_error_of_untyped (f : FuncSig)
    (h : ∃ p ∈ f.params, p.annotation = none) :
    ∃ pn, create_model_from_function f = .error (.untypedParameter pn f.name) := by
  simp only [create_model_from_function]
  exact mapM_paramField_error f.name f.params h

/-! ## Backend facts -/

theorem lookupTool_name {tools : List (String × Tool)} {n : String} {t : Tool}
    (hwf : ∀ kv ∈ tools, kv.2.name = kv.1) (h : lookupTool tools n = some t) :
    t.name = n := by
  induction tools with
  | nil => simp [lookupTool] at h
  | cons kv rest ih =>
      obtain ⟨k1, t1⟩ := kv
      by_cases hk : k1 = n
      · subst hk
        rw [lookupTool, if_pos rfl] at h
        have ht : t1 = t := by injection h
        subst ht
        exact hwf (k1, t1) (by simp)
      · rw [lookupTool, if_neg hk] at h
        exact ih (fun q hq => hwf q (by simp [hq])) h

theorem from_function_error_untyped (f : FuncSig)
    (h : ∃ p ∈ f.params, p.annotation = none) :
    ∃ pn, Tool.from_function f = .error (.untypedParameter pn f.name) := by
  obtain ⟨pn, hpn⟩ := create_model_error_of_untyped f h
  refine ⟨pn, ?_⟩
  simp only [Tool.from_function]
  rw [hpn, exc_bind_error]

theorem from_function_error_nodoc (f : FuncSig) (hdoc : f.doc = none)
    (h : ∀ p ∈ f.params, p.annotation ≠ none) :
    Tool.from_function f = .error (.missingDocstring f.name) := by
  obtain ⟨fields, hf⟩ := create_model_ok_of_annotated f h
  simp only [Tool.from_function]
  rw [hf, exc_bind_ok, hdoc]

theorem from_function_ok (f : FuncSig) (d : String) (hdoc : f.doc = some d)
    (h : ∀ p ∈ f.params, p.annotation ≠ none) :
    ∃ t, Tool.from_function f = .ok t ∧ t.name = f.name ∧ t.description = d := by
  obtain ⟨fields, hf⟩ := create_model_ok_of_annotated f h
  refine ⟨⟨f.name, d, fields, true⟩, ?_, rfl, rfl⟩
  simp only [Tool.from_function]
  rw [hf, exc_bind_ok, hdoc]
  rfl

/-! # The specification claims -/

/-- C1: provider-A conversion scans left to right and groups runs — a user
`TextMessage` absorbs every immediately following `ImageMessage` into one
wire message, an assistant `TextMessage` absorbs every immediately
following `ToolRequestMessage`, every other part forms its own wire
message (the conversion equals merging the run decomposition; the runs
partition the history, have the claimed shapes, and are maximal); in
particular `[AssistantText("Processing"), ToolRequest("tool_name",
{"param": "value"}, "1")]` produces exactly one assistant wire message
carrying both the text content entry and a one-entry `tool_calls` array
whose `function.arguments` is the literal string `{"param": "value"}`. -/
theorem claim_C1 :
    (∀ h : MessageHistory, MessageHistory.to_openai h = to_openai_spec h)
    ∧ (∀ h : MessageHistory, ((openaiRuns h).map fun run => run.1 :: run.2).flatten = h)
    ∧ (∀ h : MessageHistory, ∀ run ∈ openaiRuns h,
        (isUserText run.1 = true ∧ ∀ p ∈ run.2, isImageMessage p = true) ∨
        (isAssistantText run.1 = true ∧ ∀ p ∈ run.2, isToolRequestMessage p = true) ∨
        (isUserText run.1 = false ∧ isAssistantText run.1 = false ∧ run.2 = []))
    ∧ (∀ h : MessageHistory,
        List.Chain'
          (fun r1 r2 =>
            (isUserText r1.1 = true → isImageMessage r2.1 = false) ∧
            (isAssistantText r1.1 = true → isToolRequestMessage r2.1 = false))
          (openaiRuns h))
    ∧ (MessageHistory.to_openai
        [.TextMessage "Processing" false,
         .ToolRequestMessage "tool_name" [("param", .str "value")] "1"] =
       .ok [.obj [("role", .str "assistant"),
         ("content", .arr [.obj [("type", .str "text"), ("text", .str "Processing")]]),
         ("tool_calls", .arr [.obj [("id", .str "1"), ("type", .str "function"),
           ("function", .obj [("name", .str "tool_name"),
             ("arguments", .str "\x7b\"param\": \"value\"\x7d")])]])]]) := by
  refine ⟨to_openai_eq_spec, openaiRuns_join, openaiRuns_shape, openaiRuns_maximal, ?_⟩
  simp [MessageHistory.to_openai, MessagePart.to_openai, isUserText, isAssistantText,
    isImageMessage, isToolRequestMessage, merge, mergeObj, JVal.lookupKey, JVal.setKey,
    JVal.isContainer, dumps, dumpsObj, pyJsonStr, escapeChar, String.join,
    List.takeWhile, List.dropWhile]
  rfl

/-- C1 witness: the run-shape conjunct of `claim_C1` applied to the
two-part history user text then image — the single run opens with the user
text and absorbs the image. -/
theorem claim_C1_witness :
    (isUserText (MessagePart.TextMessage "hi" true) = true ∧
      ∀ p ∈ [MessagePart.ImageMessage "b64"], isImageMessage p = true) ∨
    (isAssistantText (MessagePart.TextMessage "hi" true) = true ∧
      ∀ p ∈ [MessagePart.ImageMessage "b64"], isToolRequestMessage p = true) ∨
    (isUserText (MessagePart.TextMessage "hi" true) = false ∧
      isAssistantText (MessagePart.TextMessage "hi" true) = false ∧
      ([MessagePart.ImageMessage "b64"] : List MessagePart) = []) :=
  claim_C1.2.2.1 [.TextMessage "hi" true, .ImageMessage "b64"]
    (.TextMessage "hi" true, [.ImageMessage "b64"])
    (by simp [openaiRuns, isUserText, isImageMessage, List.takeWhile, List.dropWhile])

/-- The provider-B scenario history of C2: user text, image, assistant
text, tool request, tool output. -/
def c2history : MessageHistory :=
  [.TextMessage "Hello" true, .ImageMessage "img64",
   .TextMessage "Processing" false,
   .ToolRequestMessage "tool_name" [("param", .str "value")] "1",
   .ToolOutputMessage "1" "tool_name" "tool output" false]

/-- Evaluating the provider-B conversion on the C2 scenario history. -/
theorem c2history_to_anthropic :
    MessageHistory.to_anthropic c2history =
      .ok [.obj [("role", .str "user"),
             ("content", .arr [.obj [("type", .str "text"), ("text", .str "Hello")],
               .obj [("type", .str "image"),
                 ("source", .obj [("type", .str "base64"),
                   ("media_type", .str "image/png"), ("data", .str "img64")])]])],
           .obj [("role", .str "assistant"),
             ("content", .arr [.obj [("type", .str "text"), ("text", .str "Processing")],
               .obj [("type", .str "tool_use"), ("name", .str "tool_name"),
                 ("input", .obj [("param", .str "value")]), ("id", .str "1")]])],
           .obj [("role", .str "user"),
             ("content", .arr [.obj [("type", .str "tool_result"),
               ("tool_use_id", .str "1"), ("content", .str "tool output")]])]] := by
  simp [c2history, MessageHistory.to_anthropic, MessagePart.to_anthropic, is_user_message,
    merge, mergeObj, JVal.lookupKey, JVal.setKey, JVal.isContainer,
    List.takeWhile, List.dropWhile, exc_bind_ok, exc_bind_error, exc_pure, exc_map_ok]

/-- C2 counterexample: on the scenario history, provider-B conversion
produces three wire messages, not two as the claim states. -/
theorem claim_C2_counterexample :
    (MessageHistory.to_anthropic c2history).map List.length ≠ Except.ok 2 := by
  rw [c2history_to_anthropic]
  simp [Except.map]

/-- C2 (amended): run boundaries follow the `is_user_turn` classification —
maximal consecutive stretches of one classification merge into one wire
message (the conversion equals merging the run decomposition, the runs
partition the history, absorbed parts share the opening part's
classification, consecutive runs alternate) — and the scenario history
produces exactly THREE wire messages: a user message merging the first two
elements, a non-user message merging the assistant text and the tool_use,
and a new user message holding the tool output, which breaks the run. -/
theorem claim_C2 :
    (∀ h : MessageHistory, MessageHistory.to_anthropic h = to_anthropic_spec h)
    ∧ (∀ h : MessageHistory, ((anthropicRuns h).map fun run => run.1 :: run.2).flatten = h)
    ∧ (∀ h : MessageHistory, ∀ run ∈ anthropicRuns h, ∀ p ∈ run.2,
        is_user_message p = is_user_message run.1)
    ∧ (∀ h : MessageHistory,
        List.Chain' (fun r1 r2 => is_user_message r2.1 = !is_user_message r1.1)
          (anthropicRuns h))
    ∧ (MessageHistory.to_anthropic c2history =
       .ok [.obj [("role", .str "user"),
              ("content", .arr [.obj [("type", .str "text"), ("text", .str "Hello")],
                .obj [("type", .str "image"),
                  ("source", .obj [("type", .str "base64"),
                    ("media_type", .str "image/png"), ("data", .str "img64")])]])],
            .obj [("role", .str "assistant"),
              ("content", .arr [.obj [("type", .str "text"), ("text", .str "Processing")],
                .obj [("type", .str "tool_use"), ("name", .str "tool_name"),
                  ("input", .obj [("param", .str "value")]), ("id", .str "1")]])],
            .obj [("role", .str "user"),
              ("content", .arr [.obj [("type", .str "tool_result"),
                ("tool_use_id", .str "1"), ("content", .str "tool output")]])]]) := by
  exact ⟨to_anthropic_eq_spec, anthropicRuns_join, anthropicRuns_classification,
    anthropicRuns_alternate, c2history_to_anthropic⟩

/-- C2 witness: the classification conjunct of `claim_C2` applied to the
scenario history's first run — the absorbed image is classified like the
opening user text. -/
theorem claim_C2_witness :
    ∀ p ∈ [MessagePart.ImageMessage "img64"],
      is_user_message p = is_user_message (MessagePart.TextMessage "Hello" true) :=
  claim_C2.2.2.1 c2history (.TextMessage "Hello" true, [.ImageMessage "img64"])
    (by simp [c2history, anthropicRuns, is_user_message, List.takeWhile, List.dropWhile])

/-- C3: `merge` equals the spec's reference definition — sequences
concatenate (`a` before `b`, length additive); mappings agree with
`mergeSpec` on every success, which keeps every key of `a` in `a`'s
order (shared container values merged recursively, shared equal
non-container values retained once) and appends the keys only in `b` in
`b`'s order with their values copied; for disjoint keys the result is the
ordered concatenation of the two mappings. -/
theorem claim_C3 :
    (∀ la lb : List JVal, merge (.arr la) (.arr lb) = .ok (.arr (la ++ lb)) ∧
      (la ++ lb).length = la.length + lb.length)
    ∧ (∀ a b : List (String × JVal), (keysOf a).Nodup → (keysOf b).Nodup →
        ∀ out, (merge (.obj a) (.obj b) = .ok out ↔ mergeSpec (.obj a) (.obj b) = .ok out))
    ∧ (∀ a b : List (String × JVal), (keysOf b).Nodup →
        (∀ kv ∈ b, kv.1 ∉ keysOf a) → merge (.obj a) (.obj b) = .ok (.obj (a ++ b))) :=
  ⟨fun la lb => ⟨merge_arr_arr la lb, List.length_append la lb⟩,
   fun _ _ ha hb out => merge_ok_iff_mergeSpec ha hb out,
   fun _ _ hb hd => merge_disjoint hb hd⟩

/-- C3 witness: the mapping conjuncts of `claim_C3` applied to the
concrete dicts `{"k": "v"}` and `{"k2": "v2"}`. -/
theorem claim_C3_witness :
    (∀ out, (merge (.obj [("k", .str "v")]) (.obj [("k2", .str "v2")]) = .ok out ↔
       mergeSpec (.obj [("k", .str "v")]) (.obj [("k2", .str "v2")]) = .ok out))
    ∧ merge (.obj [("k", .str "v")]) (.obj [("k2", .str "v2")]) =
        .ok (.obj [("k", .str "v"), ("k2", .str "v2")]) :=
  ⟨claim_C3.2.1 [("k", .str "v")] [("k2", .str "v2")]
      (by simp [keysOf]) (by simp [keysOf]),
   claim_C3.2.2 [("k", .str "v")] [("k2", .str "v2")]
      (by simp [keysOf]) (by simp [keysOf])⟩

/-- C4 counterexample: `{"k": 1}` merged with `{"k": [2]}` — both are
mappings sharing key `"k"`, the `a`-side value is a non-container but the
`b`-side value is a container, so neither of the claim's two failure cases
applies literally and "succeeds otherwise" predicts success; the code
raises a ConflictError naming the key and both values. -/
theorem claim_C4_counterexample :
    merge (.obj [("k", .num 1)]) (.obj [("k", .arr [.num 2])]) =
      .error (.conflict "k" (.num 1) (.arr [.num 2])) := by
  simp [merge, mergeObj, JVal.lookupKey, JVal.isContainer]

/-- C4 (amended): `merge` fails with a TypeMismatchError naming both values
whenever the two merged values — the top-level arguments, or, through the
recursion on a shared key whose `a`-side value is a container, the nested
values — are not both sequences or both mappings; it cannot succeed when
the mappings share a key whose `a`-side value is a non-container different
from `b`'s value (even when `b`'s value is a container, as in the
counterexample), and when the other `b`-keys are fresh that failure is the
ConflictError naming the key and both values; sharing a key mapped to
equal non-container values succeeds with the value retained once; no
partial result is returned on failure. -/
theorem claim_C4 :
    (∀ a b : JVal, ¬(isArr a = true ∧ isArr b = true) →
      ¬(isObj a = true ∧ isObj b = true) → merge a b = .error (.typeMismatch a b))
    ∧ (∀ (a b : List (String × JVal)) (k : String) (va vb : JVal),
        (keysOf a).Nodup → (keysOf b).Nodup →
        JVal.lookupKey a k = some va → JVal.lookupKey b k = some vb →
        va.isContainer = false → va ≠ vb →
        ∀ out, merge (.obj a) (.obj b) ≠ .ok out)
    ∧ (∀ (a b1 b2 : List (String × JVal)) (k : String) (va vb : JVal),
        (keysOf b1).Nodup → (∀ kv ∈ b1, kv.1 ∉ keysOf a) →
        JVal.lookupKey a k = some va → va.isContainer = false → va ≠ vb →
        merge (.obj a) (.obj (b1 ++ (k, vb) :: b2)) = .error (.conflict k va vb))
    ∧ (∀ (a b1 b2 : List (String × JVal)) (k : String) (va : JVal),
        (keysOf (b1 ++ (k, va) :: b2)).Nodup → (∀ kv ∈ b1 ++ b2, kv.1 ∉ keysOf a) →
        JVal.lookupKey a k = some va → va.isContainer = false →
        merge (.obj a) (.obj (b1 ++ (k, va) :: b2)) = .ok (.obj (a ++ b1 ++ b2))) :=
  ⟨fun _ _ h1 h2 => merge_typeMismatch h1 h2,
   fun _ _ _ _ _ ha hb hka hkb hc hne => merge_conflict_not_ok ha hb hka hkb hc hne,
   fun _ _ _ _ _ _ hb1 hfr hka hc hne => merge_conflict_error hb1 hfr hka hc hne,
   fun _ _ _ _ _ hb hfr hka hc => merge_shared_equal hb hfr hka hc⟩

/-- C4 witness: the conjuncts of `claim_C4` applied to concrete values — a
sequence merged with a mapping raises the TypeMismatchError in both
argument orders; `{"k": "x"}` with `{"k": "y"}` raises the ConflictError
naming `"k"` and both values; `{"k": "x"}` with `{"k": "x"}` succeeds with
the value retained once. -/
theorem claim_C4_witness :
    merge (.arr []) (.obj []) = .error (.typeMismatch (.arr []) (.obj []))
    ∧ merge (.obj []) (.arr []) = .error (.typeMismatch (.obj []) (.arr []))
    ∧ merge (.obj [("k", .str "x")]) (.obj [("k", .str "y")]) =
        .error (.conflict "k" (.str "x") (.str "y"))
    ∧ merge (.obj [("k", .str "x")]) (.obj [("k", .str "x")]) =
        .ok (.obj [("k", .str "x")]) :=
  ⟨claim_C4.1 (.arr []) (.obj []) (by simp [isArr]) (by simp [isObj]),
   claim_C4.1 (.obj []) (.arr []) (by simp [isArr]) (by simp [isObj]),
   claim_C4.2.2.1 [("k", .str "x")] [] [] "k" (.str "x") (.str "y")
     (by simp [keysOf]) (by simp) (by simp [JVal.lookupKey]) rfl (by simp),
   claim_C4.2.2.2 [("k", .str "x")] [] [] "k" (.str "x")
     (by simp [keysOf]) (by simp) (by simp [JVal.lookupKey]) rfl⟩

/-- C5: both normalizers are total — for every history built from the four
variants, neither `to_openai` nor `to_anthropic` ever hits `merge`'s
conflict or type-mismatch branches: each returns a wire message list. -/
theorem claim_C5 (h : MessageHistory) :
    (∃ l, MessageHistory.to_openai h = .ok l) ∧
    (∃ l, MessageHistory.to_anthropic h = .ok l) :=
  ⟨to_openai_total h, to_anthropic_total h⟩

/-- C6: the number of wire messages produced by provider-A grouping never
exceeds the number of parts in the history, and equals it exactly when no
two adjacent parts are eligible to merge (user text followed by an image,
or assistant text followed by a tool request). -/
theorem claim_C6 (h : MessageHistory) (l : List JVal)
    (hok : MessageHistory.to_openai h = .ok l) :
    l.length ≤ h.length ∧
      (l.length = h.length ↔ List.Chain' (fun a b => eligiblePair a b = false) h) := by
  rw [to_openai_eq_spec] at hok
  have hlen : l.length = (openaiRuns h).length := mapM_ok_length hok
  constructor
  · rw [hlen]; exact openaiRuns_length_le h
  · rw [hlen]; exact openaiRuns_length_eq_iff h

/-- C6 witness: `claim_C6` applied to the claim's example — a lone user
text followed by a lone assistant text produces exactly 2 wire
messages. -/
theorem claim_C6_witness :
    ([JVal.obj [("role", .str "user"),
        ("content", .arr [.obj [("type", .str "text"), ("text", .str "a")]])],
      JVal.obj [("role", .str "assistant"),
        ("content", .arr [.obj [("type", .str "text"), ("text", .str "b")]])]].length ≤
      ([MessagePart.TextMessage "a" true, MessagePart.TextMessage "b" false] :
        MessageHistory).length) ∧
    (([JVal.obj [("role", .str "user"),
        ("content", .arr [.obj [("type", .str "text"), ("text", .str "a")]])],
      JVal.obj [("role", .str "assistant"),
        ("content", .arr [.obj [("type", .str "text"), ("text", .str "b")]])]].length =
      ([MessagePart.TextMessage "a" true, MessagePart.TextMessage "b" false] :
        MessageHistory).length) ↔
      List.Chain' (fun a b => eligiblePair a b = false)
        [MessagePart.TextMessage "a" true, MessagePart.TextMessage "b" false]) :=
  claim_C6 [.TextMessage "a" true, .TextMessage "b" false]
    [.obj [("role", .str "user"),
        ("content", .arr [.obj [("type", .str "text"), ("text", .str "a")]])],
     .obj [("role", .str "assistant"),
        ("content", .arr [.obj [("type", .str "text"), ("text", .str "b")]])]]
    (by simp [MessageHistory.to_openai, MessagePart.to_openai, isUserText, isAssistantText,
      isImageMessage, isToolRequestMessage, List.takeWhile, List.dropWhile,
      exc_bind_ok, exc_pure])

/-- C7: serializing a history to the ordered list of tagged objects — one
object per part with the `type` discriminator holding one of `"text"`,
`"image"`, `"toolrequest"`, `"tooloutput"`, plus the variant's remaining
fields — and deserializing that list yields the original history,
element by element. -/
theorem claim_C7 :
    (∀ h : MessageHistory,
      MessageHistory.model_validate (MessageHistory.model_dump h) = some h)
    ∧ (∀ p : MessagePart, ∃ kvs, p.model_dump = .obj (("type", .str p.typeTag) :: kvs))
    ∧ (∀ p : MessagePart, p.typeTag = "text" ∨ p.typeTag = "image" ∨
        p.typeTag = "toolrequest" ∨ p.typeTag = "tooloutput") := by
  refine ⟨model_roundtrip, model_dump_typeTag, ?_⟩
  intro p
  cases p <;> simp [MessagePart.typeTag]

/-- The signature of the spec's tool-derivation scenario:
`custom_add(a: int, b: float = 2)` with docstring `"Add two numbers"`. -/
def addSig : FuncSig :=
  { name := "custom_add", doc := some "Add two numbers",
    params := [{ name := "a", annotation := some .int, default := none },
               { name := "b", annotation := some .float, default := some (.num 2) }] }

/-- The tool the code derives from `addSig`. -/
def addTool : Tool :=
  { name := "custom_add", description := "Add two numbers",
    fields := [{ name := "a", type := .int, required := true, default := none },
               { name := "b", type := .float, required := false, default := some (.num 2) }] }

/-- C8: on `custom_add(a: int, b: float = 2)` the derived model's schema
has `properties` keyed `["a", "b"]` in signature order and
`required == ["a"]`, and instantiating the model with only `a` supplied
succeeds using the default for `b`; but `Tool.shema` — the schema exposed
to both providers — wraps both values in one-element tuples (the trailing
commas in the source), so its `properties` entry is an array around the
mapping rather than the mapping keyed by parameter name that the claim
describes. -/
theorem claim_C8 :
    Tool.from_function addSig = .ok addTool
    ∧ model_json_schema addTool.fields =
        .obj [("properties", .obj [("a", .obj [("type", .str "integer")]),
                                   ("b", .obj [("type", .str "number")])]),
              ("required", .arr [.str "a"])]
    ∧ modelValidate addTool.fields [("a", .num 1)] =
        some [("a", .num 1), ("b", .num 2)]
    ∧ Tool.shema addTool =
        .obj [("type", .str "object"),
              ("properties", .arr [.obj [("a", .obj [("type", .str "integer")]),
                                         ("b", .obj [("type", .str "number")])]]),
              ("required", .arr [.arr [.str "a"]])] :=
  ⟨rfl, rfl, rfl, rfl⟩

/-- A callable with annotated parameters and an empty — but present —
docstring. -/
def emptyDocSig : FuncSig :=
  { name := "f", doc := some "",
    params := [{ name := "a", annotation := some .int, default := none }] }

/-- C9 counterexample: with an empty docstring the code's
`assert func.__doc__ is not None` passes, so derivation succeeds with an
empty description — the claim says it must fail. -/
theorem claim_C9_counterexample :
    Tool.from_function emptyDocSig =
      .ok { name := "f", description := "",
            fields := [{ name := "a", type := .int, required := true, default := none }] } :=
  rfl

/-- C9 (amended): tool derivation fails with a SchemaError whenever some
parameter lacks a type annotation; it fails whenever the docstring is
absent (`None`); an empty but present docstring is accepted, and with
every parameter annotated and the docstring present derivation succeeds,
carrying the callable's name and docstring. -/
theorem claim_C9 :
    (∀ f : FuncSig, (∃ p ∈ f.params, p.annotation = none) →
      ∃ pn, Tool.from_function f = .error (.untypedParameter pn f.name))
    ∧ (∀ f : FuncSig, f.doc = none → (∀ p ∈ f.params, p.annotation ≠ none) →
        Tool.from_function f = .error (.missingDocstring f.name))
    ∧ (∀ (f : FuncSig) (d : String), f.doc = some d →
        (∀ p ∈ f.params, p.annotation ≠ none) →
        ∃ t, Tool.from_function f = .ok t ∧ t.name = f.name ∧ t.description = d) :=
  ⟨from_function_error_untyped, from_function_error_nodoc, from_function_ok⟩

/-- An unannotated-parameter callable and an undocumented callable used to
witness C9. -/
def untypedSig : FuncSig :=
  { name := "g", doc := some "doc",
    params := [{ name := "x", annotation := none, default := none }] }

def nodocSig : FuncSig :=
  { name := "h", doc := none,
    params := [{ name := "x", annotation := some .int, default := none }] }

/-- C9 witness: `claim_C9` applied to the three concrete callables. -/
theorem claim_C9_witness :
    (∃ pn, Tool.from_function untypedSig = .error (.untypedParameter pn untypedSig.name))
    ∧ Tool.from_function nodocSig = .error (.missingDocstring nodocSig.name)
    ∧ (∃ t, Tool.from_function addSig = .ok t ∧ t.name = addSig.name ∧
        t.description = "Add two numbers") :=
  ⟨claim_C9.1 untypedSig ⟨{ name := "x", annotation := none, default := none },
      by simp [untypedSig], rfl⟩,
   claim_C9.2.1 nodocSig rfl (by
      intro p hp
      simp [nodocSig] at hp
      subst hp
      simp),
   claim_C9.2.2 addSig "Add two numbers" rfl (by
      intro p hp
      simp [addSig] at hp
      rcases hp with hp | hp
      · subst hp; simp
      · subst hp; simp)⟩

/-- C10: for a history whose `index` holds a pending `ToolRequestMessage`
whose tool is registered (the registry maps each name to a tool carrying
that name, as registration enforces), the deny action appends exactly one
`ToolOutputMessage` whose `id` is the request's id, whose `name` is the
request's tool name, whose content is the fixed string
`"Tool call denied by user"` and whose `canceled` flag is true, leaving
every pre-existing element and their order unchanged; the appended
output's id corresponds to the earlier request at `index`, which stays in
place. -/
theorem claim_C10 (st : ChatBackend) (index : Nat) (name : String)
    (params : List (String × JVal)) (id : String) (tool : Tool)
    (hwf : ∀ kv ∈ st.tools, kv.2.name = kv.1)
    (hidx : st.messages[index]? = some (.ToolRequestMessage name params id))
    (_hpend : pendingToolRequest st.messages index = true)
    (hlk : lookupTool st.tools name = some tool) :
    call_action_deny st index =
      some { tools := st.tools,
             messages := st.messages ++
               [.ToolOutputMessage id name "Tool call denied by user" true] }
    ∧ index < st.messages.length := by
  constructor
  · simp only [call_action_deny, hidx, hlk]
    rw [lookupTool_name hwf hlk]
  · obtain ⟨hlt, _⟩ := List.getElem?_eq_some_iff.mp hidx
    exact hlt

/-- The one-tool backend used to witness C10: the registry holds tool
`"t"` and the history one pending request for it. -/
def denyTool : Tool := { name := "t", description := "d", fields := [] }

def denyBackend : ChatBackend :=
  { tools := [("t", denyTool)],
    messages := [.ToolRequestMessage "t" [] "1"] }

/-- C10 witness: `claim_C10` applied to the one-tool backend at index 0. -/
theorem claim_C10_witness :
    call_action_deny denyBackend 0 =
      some { tools := denyBackend.tools,
             messages := denyBackend.messages ++
               [.ToolOutputMessage "1" "t" "Tool call denied by user" true] }
    ∧ (0 : Nat) < denyBackend.messages.length :=
  claim_C10 denyBackend 0 "t" [] "1" denyTool
    (by
      intro kv hkv
      simp [denyBackend] at hkv
      subst hkv
      rfl)
    rfl
    (by decide)
    rfl
